import Mathlib

/-!
Verification development for the metadata layer of a chunked-array storage
format (zarr). The Python modules under src are embedded shallowly:

* zarr/core/chunk_key_encodings.py  — namespace ChunkKeys
* zarr/core/metadata/_io.py         — namespace MetaIO
* zarr/_serialization.py            — namespace Serialize

Python strings are modelled as lists of characters, Python dictionaries as
association lists in insertion order, fallible Python code as Except values.
-/

namespace ZarrProof

namespace ChunkKeys

/-- Python strings, modelled as lists of characters. -/
abbrev PyStr := List Char

/-- Decimal digit characters for values 0 to 9; larger inputs never occur
(the function is applied only to n mod 10 or to n below 10). -/
def natDigit : Nat → Char
  | 0 => '0'
  | 1 => '1'
  | 2 => '2'
  | 3 => '3'
  | 4 => '4'
  | 5 => '5'
  | 6 => '6'
  | 7 => '7'
  | 8 => '8'
  | _ => '9'

/-- Fuelled digit expansion; the fuel argument makes the recursion structural
so that results compute by definitional reduction. Called with fuel above n. -/
def natDigitsAux : Nat → Nat → List Char
  | 0, _ => []
  | fuel + 1, n => if n < 10 then [natDigit n] else natDigitsAux fuel (n / 10) ++ [natDigit (n % 10)]

/-- Python str(n) for a non-negative integer n: its decimal digits.
Chunk coordinates in the source are non-negative integers. -/
def pyStrOfNat (n : Nat) : PyStr := natDigitsAux (n + 1) n

/-- Value of a decimal digit character, none for any other character; the
code point of the zero digit is 48. -/
def digitVal? (c : Char) : Option Nat :=
  if '0' ≤ c ∧ c ≤ '9' then some (c.toNat - 48) else none

/-- Left-to-right accumulation of decimal digits, failing on the first
non-digit character. -/
def pyIntGo (acc : Nat) : PyStr → Option Nat
  | [] => some acc
  | c :: cs =>
    match digitVal? c with
    | some d => pyIntGo (10 * acc + d) cs
    | none => none

/-- Python int(s) on the strings this module decodes: a nonempty all-digit
string parses to its value, the empty string and strings holding a non-digit
character raise ValueError (modelled as none). Signs, whitespace and digit
group separators never occur in chunk keys and are not modelled. -/
def pyInt? (s : PyStr) : Option Nat :=
  if s = [] then none else pyIntGo 0 s

/-- Sequencing of pyInt? over a list of segments, as tuple(map(int, parts))
does in the source: any failing segment fails the whole conversion. -/
def parseAll : List PyStr → Option (List Nat)
  | [] => some []
  | s :: rest =>
    match pyInt? s with
    | some n =>
      match parseAll rest with
      | some ns => some (n :: ns)
      | none => none
    | none => none

/-- The configuration dataclass ChunkKeyEncodingConfiguration, holding the
separator. Its declared type allows only the two characters . and / but the
dataclass performs no validation at construction time. -/
structure ChunkKeyEncodingConfiguration where
  separator : Char
deriving DecidableEq

/-- The two concrete chunk key encoding dataclasses, DefaultChunkKeyEncoding
and V2ChunkKeyEncoding. The name field of each variant is a tagged literal
and is determined by the variant, so it is not stored separately here. -/
inductive ChunkKeyEncoding where
  | defaultE (configuration : ChunkKeyEncodingConfiguration)
  | v2E (configuration : ChunkKeyEncodingConfiguration)
deriving DecidableEq

/-- Method encode_chunk_key of the two encoding classes. The source methods
read self.separator; the attribute plumbing goes through the Metadata base
class which is outside src. Modelled from the spec: the separator in use is
the configured separator. The default scheme joins the literal segment c with
the printed coordinates; the v2 scheme joins the printed coordinates and maps
the empty result to the literal 0. -/
def ChunkKeyEncoding.encode_chunk_key : ChunkKeyEncoding → List Nat → PyStr
  | .defaultE cfg, coords =>
    List.intercalate [cfg.separator] (['c'] :: coords.map pyStrOfNat)
  | .v2E cfg, coords =>
    let chunk_identifier := List.intercalate [cfg.separator] (coords.map pyStrOfNat)
    if chunk_identifier = [] then ['0'] else chunk_identifier

/-- Method decode_chunk_key of the two encoding classes. The default scheme
returns the empty tuple on the bare key c and otherwise drops exactly one
character (the slice starting at index 1 in the source) before splitting on
the separator; the v2 scheme splits the whole key. Conversion of the segments
goes through int, so a non-digit or empty segment fails (none). -/
def ChunkKeyEncoding.decode_chunk_key : ChunkKeyEncoding → PyStr → Option (List Nat)
  | .defaultE cfg, chunk_key =>
    if chunk_key = ['c'] then some []
    else parseAll ((chunk_key.drop 1).splitOn cfg.separator)
  | .v2E cfg, chunk_key => parseAll (chunk_key.splitOn cfg.separator)

/-- Function parse_separator from the source: accepts exactly the two
characters . and / and raises ValueError on anything else. -/
def parse_separator (data : PyStr) : Except String PyStr :=
  if data = ['.'] ∨ data = ['/'] then .ok data
  else .error "Expected a . or / separator"

/-- Direct construction of DefaultChunkKeyEncoding: the generated init stores
the fields and the post-init hook checks only that the name equals default.
No separator validation occurs; the validation call in the source is
commented out and parse_separator is never invoked. -/
def mkDefaultChunkKeyEncoding (name : PyStr) (configuration : ChunkKeyEncodingConfiguration) :
    Except String ChunkKeyEncoding :=
  if name = "default".toList then .ok (.defaultE configuration)
  else .error "TypeError"

/-- Direct construction of V2ChunkKeyEncoding: the class overrides nothing,
so the inherited no-op post-init hook runs and construction always succeeds,
with no validation of the separator or even of the name. -/
def mkV2ChunkKeyEncoding (_name : PyStr) (configuration : ChunkKeyEncodingConfiguration) :
    Except String ChunkKeyEncoding :=
  .ok (.v2E configuration)

/-- Value tree input for ChunkKeyEncoding.from_dict when the input is a
mapping: the name entry and the optional configuration mapping, whose
entries are string keys with string values (only the separator occurs). -/
structure NamedConfigurationInput where
  name : PyStr
  configuration : Option (List (PyStr × PyStr))
deriving DecidableEq

/-- Modelled from the spec: parse_named_configuration lives in
zarr.core.common which is outside src. Per the spec it extracts the name and
the configuration mapping from a named value tree; with a non-required
configuration it returns the name paired with none when the configuration
mapping is absent. -/
def parse_named_configuration (data : NamedConfigurationInput) :
    PyStr × Option (List (PyStr × PyStr)) :=
  (data.name, data.configuration)

/-- The generated init of the encoding dataclasses accepts exactly the
keyword parameters name and configuration; any other keyword raises
TypeError. The source calls it with the parsed configuration mapping spread
as keywords, and that mapping carries the key separator. The success branch
constructs the variant with its field defaults; it is unreachable from
from_dict because every configuration mapping passed in holds separator. -/
def chunkKeyEncodingInitKwargs (isDefault : Bool) (kwargs : List (PyStr × PyStr)) :
    Except String ChunkKeyEncoding :=
  if kwargs.all fun kv => kv.1 == "name".toList || kv.1 == "configuration".toList then
    .ok (if isDefault then .defaultE ⟨'.'⟩ else .v2E ⟨'.'⟩)
  else .error "TypeError: init got an unexpected keyword argument"

/-- Input of ChunkKeyEncoding.from_dict: either an existing encoding instance
or a value tree mapping. -/
inductive FromDictData where
  | alreadyEncoding (e : ChunkKeyEncoding)
  | mapping (m : NamedConfigurationInput)

/-- Classmethod ChunkKeyEncoding.from_dict: an existing encoding instance is
returned unchanged; a mapping is parsed into name and optional configuration,
a missing configuration is normalized to the scheme default separator
(slash for default, dot for v2) before construction, and the constructor is
invoked with the configuration mapping spread as keyword arguments. An
unrecognized name raises ValueError. -/
def ChunkKeyEncoding.from_dict : FromDictData → Except String ChunkKeyEncoding
  | .alreadyEncoding e => .ok e
  | .mapping m =>
    let parsed := parse_named_configuration m
    if parsed.1 = "default".toList then
      let config := parsed.2.getD [("separator".toList, "/".toList)]
      chunkKeyEncodingInitKwargs true config
    else if parsed.1 = "v2".toList then
      let config := parsed.2.getD [("separator".toList, ".".toList)]
      chunkKeyEncodingInitKwargs false config
    else .error "Unknown chunk key encoding"

end ChunkKeys

namespace MetaIO

/-- Modelled from the spec: the four fixed on-store key names are declared in
zarr.core.common, which is outside src; the spec fixes their exact literals. -/
def ZARR_JSON : String := "zarr.json"

/-- Modelled from the spec: legacy array metadata key. -/
def ZARRAY_JSON : String := ".zarray"

/-- Modelled from the spec: legacy group metadata key. -/
def ZGROUP_JSON : String := ".zgroup"

/-- Modelled from the spec: legacy attributes key. -/
def ZATTRS_JSON : String := ".zattrs"

/-- The node type argument: the string literals array and group. -/
inductive NodeType where
  | array
  | group
deriving DecidableEq

/-- ZarrFormat, the literal type of the versions 2 and 3. -/
inductive ZarrFormat where
  | v2
  | v3
deriving DecidableEq

/-- Function _build_paths: the nine-case match on the pair of optional node
type and optional format version, returning the key names to fetch. The
fallthrough ValueError case of the source is unreachable here because the
argument types cover exactly the valid literals. -/
def _build_paths (node_type : Option NodeType) (zarr_format : Option ZarrFormat) :
    List String :=
  match (node_type, zarr_format) with
  | (_, some .v3) => [ZARR_JSON]
  | (some .array, some .v2) => [ZARRAY_JSON, ZATTRS_JSON]
  | (some .array, none) => [ZARR_JSON, ZATTRS_JSON, ZARRAY_JSON]
  | (some .group, some .v2) => [ZGROUP_JSON, ZATTRS_JSON]
  | (some .group, none) => [ZGROUP_JSON, ZATTRS_JSON, ZARR_JSON]
  | (none, some .v2) => [ZARRAY_JSON, ZATTRS_JSON, ZGROUP_JSON]
  | (none, none) => [ZARRAY_JSON, ZATTRS_JSON, ZGROUP_JSON, ZARR_JSON]

/-- Errors that resolution can surface. ContainsArrayAndGroupError is the
distinct ambiguous-node-type error declared in zarr/errors.py. -/
inductive ResolveErr where
  | todoExc
  | containsArrayAndGroupError
deriving DecidableEq

/-- The store at one path, modelled as a map from key name to the optionally
present document bytes; the get call of the abstract store capability. -/
abbrev Store := String → Option String

/-- Coroutine _gather_documents after the fan-out reads have completed. The
reads themselves (asyncio.gather over the computed paths) do not affect the
result; the interpretation match in the source checks, for a known format
version 3, that the single document is present (raising the placeholder
Exception when it is absent, then assigning the Ellipsis placeholder to the
node type), while every other case merely extends the local paths list again
and falls off the end of the function, returning None (modelled as ok). No
case inspects whether both legacy metadata documents are present and no case
raises ContainsArrayAndGroupError. -/
def _gather_documents (store : Store) (node_type : Option NodeType)
    (zarr_format : Option ZarrFormat) : Except ResolveErr Unit :=
  let paths := _build_paths node_type zarr_format
  let items := paths.map fun p => (p, store p)
  match (node_type, zarr_format) with
  | (_, some .v3) =>
    match (items.lookup ZARR_JSON).join with
    | none => .error .todoExc
    | some _ => .ok ()
  | _ => .ok ()

/-- A concrete store holding both legacy metadata documents and no single
document: the inconsistent state of claim C4. -/
def ambiguousStore : Store := fun key =>
  if key = ZARRAY_JSON then some "array-doc"
  else if key = ZGROUP_JSON then some "group-doc"
  else none

end MetaIO

namespace Serialize

/-- Python exceptions surfaced by the codec. The source raises TypeError with
placeholder messages, KeyError from mapping subscripts, and ValueError from
int conversions; externalCodecs marks the dedicated pipeline route through
parse_codecs, which lives outside src and is never taken under the
well-formedness assumptions below. -/
inductive PyErr where
  | typeErr (msg : String)
  | keyErr
  | valueErr (msg : String)
  | assertionErr
  | externalCodecs
deriving DecidableEq

mutual
/-- Target types of the decoder, mirroring the type annotations the source
dispatches on: int, str, bool, Any, single-string Literal types, fixed-arity
tuples, homogeneous variadic tuples, lists, sets, optional types (a union of
one concrete type with None), true unions of dataclasses, and dataclasses
with named fields. Multi-value Literal types, enums and the numpy scalar
types are not part of the claims and are left out of this universe. -/
inductive PyType where
  | intT
  | strT
  | boolT
  | anyT
  | lit (s : String)
  | tupleFix (ts : TyList)
  | tupleVar (t : PyType)
  | listT (t : PyType)
  | setT (t : PyType)
  | optT (t : PyType)
  | unionT (vs : TyList)
  | recordT (fs : FieldDecls)
/-- A list of types (the arguments of a fixed tuple or the variants of a
union), as its own inductive so that recursion stays structural. -/
inductive TyList where
  | nil
  | cons (t : PyType) (rest : TyList)
/-- Dataclass field declarations in order: name, whether the field carries
the Tag annotation, and the declared type with the Annotated wrapper already
stripped (get_type_hints strips it in the source as well). -/
inductive FieldDecls where
  | nil
  | cons (name : String) (tagged : Bool) (ty : PyType) (rest : FieldDecls)
end

mutual
/-- Python runtime values flowing through the codec: None, bool, int, str,
tuples, lists, sets (carrying their reachable iteration order), plain dicts
with string keys, and dataclass instances (field name to value, in
declaration order). -/
inductive PyVal where
  | nullV
  | boolV (b : Bool)
  | intV (n : Int)
  | strV (s : String)
  | tupV (xs : VList)
  | listV (xs : VList)
  | setV (xs : VList)
  | dictV (kvs : VFields)
  | recordV (kvs : VFields)
/-- A list of values. -/
inductive VList where
  | nil
  | cons (v : PyVal) (rest : VList)
/-- An association list of string keys to values, insertion ordered. -/
inductive VFields where
  | nil
  | cons (name : String) (v : PyVal) (rest : VFields)
end

def TyList.length : TyList → Nat
  | .nil => 0
  | .cons _ rest => rest.length + 1

def VList.length : VList → Nat
  | .nil => 0
  | .cons _ rest => rest.length + 1

/-- Mapping subscript and dict.get: the first entry with the key. -/
def VFields.lookup : VFields → String → Option PyVal
  | .nil, _ => none
  | .cons n v rest, key => if n = key then some v else rest.lookup key

def VFields.names : VFields → List String
  | .nil => []
  | .cons n _ rest => n :: rest.names

def VFields.mapVals (f : PyVal → PyVal) : VFields → VFields
  | .nil => .nil
  | .cons n v rest => .cons n (f v) (rest.mapVals f)

def FieldDecls.names : FieldDecls → List String
  | .nil => []
  | .cons n _ _ rest => n :: rest.names

/-- First field declaration with the given name. -/
def FieldDecls.lookupTy : FieldDecls → String → Option (Bool × PyType)
  | .nil, _ => none
  | .cons n tg ty rest, key => if n = key then some (tg, ty) else rest.lookupTy key

/-- The fields of a variant that carry the Tag annotation, with their
declared types, in order; the dict comprehension over type hints in the
source. -/
def FieldDecls.taggedFields : FieldDecls → List (String × PyType)
  | .nil => []
  | .cons n tg ty rest => if tg then (n, ty) :: rest.taggedFields else rest.taggedFields

def PyType.isRecordT : PyType → Bool
  | .recordT _ => true
  | _ => false

/-- The all-dataclass test guarding the true-union branch of decode_value.
The universe keeps None out of true unions, so the test is on dataclasses
alone. -/
def TyList.allRecords : TyList → Bool
  | .nil => true
  | .cons t rest => t.isRecordT && rest.allRecords

/-- The scalar types admitted as set elements: Python sets need hashable
elements and the source only uses sets of scalars. -/
def PyType.isScalarT : PyType → Bool
  | .intT => true
  | .strT => true
  | .boolT => true
  | .lit _ => true
  | _ => false

/-- The literal discriminator value a variant declares, when it declares
exactly one tagged field whose type is a single-string literal. -/
def PyType.variantTagValue : PyType → Option String
  | .recordT fs =>
    match fs.taggedFields with
    | [(_, .lit s)] => some s
    | _ => none
  | _ => none

/-- The name of the one tagged field of a variant, when there is exactly
one. -/
def PyType.variantTagName : PyType → Option String
  | .recordT fs =>
    match fs.taggedFields with
    | [(k, _)] => some k
    | _ => none
  | _ => none

/-- The loop over variants in decode_value, collecting the shared tag field
name: each variant must declare exactly one tagged field (else TypeError),
the names must agree across variants (else TypeError), and the tagged type
must be a literal (else TypeError); the accumulator is the name seen so far.
An empty variant list trips the assertion in the source. -/
def collectTagGo : TyList → Option String → Except PyErr String
  | .nil, acc =>
    match acc with
    | some k => .ok k
    | none => .error .assertionErr
  | .cons t rest, acc =>
    match t with
    | .recordT fs =>
      match fs.taggedFields with
      | [(k, ty)] =>
        match acc with
        | some k0 =>
          if k0 = k then
            match ty with
            | .lit _ => collectTagGo rest (some k0)
            | _ => .error (.typeErr "tag is not a literal")
          else .error (.typeErr "tag name disagreement")
        | none =>
          match ty with
          | .lit _ => collectTagGo rest (some k)
          | _ => .error (.typeErr "tag is not a literal")
      | _ => .error (.typeErr "zero or multiple tag fields")
    | _ => .error (.typeErr "variant is not a dataclass")

/-- Lookup of the input discriminator value among the collected literal tags:
the keys of tags_to_variants are the literal strings, compared by equality
with the input value. -/
def tagKeyMatches (t : PyType) (tagVal : PyVal) : Bool :=
  match t.variantTagValue, tagVal with
  | some s, .strV s2 => s2 == s
  | _, _ => false

/-- Whether some variant in the list carries the given discriminator value;
used to model the dict-overwrite semantics of tags_to_variants, where a later
variant with the same tag replaces an earlier one. -/
def TyList.hasTagVal : TyList → PyVal → Bool
  | .nil, _ => false
  | .cons t rest, tagVal => tagKeyMatches t tagVal || rest.hasTagVal tagVal

/-- The literal tag of each variant, in order (the default is never used for
well-formed unions); duplicate freedom of this list is the distinctness part
of union well-formedness. -/
def tagValues : TyList → List String
  | .nil => []
  | .cons t rest => t.variantTagValue.getD "" :: tagValues rest

mutual
/-- Recursive conversion performed by dataclasses.asdict: dataclass
instances become dicts, lists, tuples and dicts are rebuilt recursively, and
every other object (including sets) is deep-copied, which leaves it equal to
itself in this universe. -/
def asdictVal : PyVal → PyVal
  | .recordV kvs => .dictV (asdictFields kvs)
  | .dictV kvs => .dictV (asdictFields kvs)
  | .listV xs => .listV (asdictList xs)
  | .tupV xs => .tupV (asdictList xs)
  | .setV xs => .setV xs
  | .nullV => .nullV
  | .boolV b => .boolV b
  | .intV n => .intV n
  | .strV s => .strV s
def asdictList : VList → VList
  | .nil => .nil
  | .cons v rest => .cons (asdictVal v) (asdictList rest)
def asdictFields : VFields → VFields
  | .nil => .nil
  | .cons n v rest => .cons n (asdictVal v) (asdictFields rest)
end

/-- Function encode_value, restricted to the values of this universe: the
registered set overload converts a set to the list of its elements in
iteration order (the elements themselves are not converted), and the default
single-dispatch overload passes every other value through unchanged. The
numpy, complex, enum, codec and datetime overloads concern leaf types outside
this universe. -/
def encode_value : PyVal → PyVal
  | .setV xs => .listV xs
  | v => v

/-- Function to_dict on the fields of a dataclass instance: asdict converts
the whole tree first, then encode_value is applied to each top-level field
value. The is_dataclass branch inside the loop of the source is dead code,
because asdict has already replaced every dataclass by a dict. -/
def to_dict (kvs : VFields) : VFields :=
  (asdictFields kvs).mapVals encode_value

mutual
/-- Whether json.dumps accepts the value: None, bool, int, str nest freely,
lists and tuples serialize as arrays, dicts as objects; sets and any other
object raise TypeError. -/
def dumpable : PyVal → Bool
  | .nullV => true
  | .boolV _ => true
  | .intV _ => true
  | .strV _ => true
  | .listV xs => dumpableList xs
  | .tupV xs => dumpableList xs
  | .dictV kvs => dumpableFields kvs
  | .setV _ => false
  | .recordV _ => false
def dumpableList : VList → Bool
  | .nil => true
  | .cons v rest => dumpable v && dumpableList rest
def dumpableFields : VFields → Bool
  | .nil => true
  | .cons _ v rest => dumpable v && dumpableFields rest
end

mutual
/-- The observable effect of a json.dumps then json.loads round trip on a
dumpable value: tuples come back as lists and everything else keeps its
shape. On non-dumpable values (sets, dataclasses), where dumps would have
raised, the function is the identity and is never relied upon. -/
def jsonRT : PyVal → PyVal
  | .tupV xs => .listV (jsonRTList xs)
  | .listV xs => .listV (jsonRTList xs)
  | .dictV kvs => .dictV (jsonRTFields kvs)
  | v => v
def jsonRTList : VList → VList
  | .nil => .nil
  | .cons v rest => .cons (jsonRT v) (jsonRTList rest)
def jsonRTFields : VFields → VFields
  | .nil => .nil
  | .cons n v rest => .cons n (jsonRT v) (jsonRTFields rest)
end

mutual
/-- Values left fixed by the dumps/loads round trip: the JSON-native shapes.
A field typed Any must hold such a value for the round trip to return it
unchanged, since an Any field is passed through without conversion. -/
def jsonStable : PyVal → Bool
  | .nullV => true
  | .boolV _ => true
  | .intV _ => true
  | .strV _ => true
  | .listV xs => jsonStableList xs
  | .dictV kvs => jsonStableFields kvs
  | .tupV _ => false
  | .setV _ => false
  | .recordV _ => false
def jsonStableList : VList → Bool
  | .nil => true
  | .cons v rest => jsonStable v && jsonStableList rest
def jsonStableFields : VFields → Bool
  | .nil => true
  | .cons _ v rest => jsonStable v && jsonStableFields rest
end

/-- Python int applied to a string: optional minus sign then decimal digits
(other int syntax never reaches this code path). -/
def pyParseInt (s : String) : Option Int :=
  match s.toList with
  | '-' :: rest => (ChunkKeys.pyInt? rest).map fun n => -(n : Int)
  | l => (ChunkKeys.pyInt? l).map fun n => (n : Int)

/-- Python truthiness, for the bool target type: bool(v). Dataclass
instances without overrides are always truthy. -/
def pyTruth : PyVal → Bool
  | .nullV => false
  | .boolV b => b
  | .intV n => n != 0
  | .strV s => s != ""
  | .listV xs => match xs with | .nil => false | _ => true
  | .tupV xs => match xs with | .nil => false | _ => true
  | .setV xs => match xs with | .nil => false | _ => true
  | .dictV kvs => match kvs with | .nil => false | _ => true
  | .recordV _ => true

mutual
/-- Function decode_value: the singledispatch default implementation,
dispatched here on the structure of the target type. Sequence targets
recurse element-wise (fixed tuples check arity first); optional targets map
None to None and otherwise decode against the concrete type; true unions of
dataclasses require a mapping input, resolve the shared tag field by the
variant loop, look the discriminator value up in the input (KeyError when
the field is absent) and then among the collected tags (KeyError when the
value matches no variant); dataclass targets route through the from_dict
field walk; Any passes through; literal targets compare against the allowed
value; int, str and bool targets apply the Python conversions. Non-sequence
inputs against sequence targets fail len or iteration in Python and are
modelled as TypeError; str applied to containers (which Python would turn
into their repr) is not exercised by any claim and is modelled as a
failure. -/
def decode_value : PyType → PyVal → Except PyErr PyVal
  | .tupleFix ts, .listV xs =>
    if ts.length = xs.length then
      match decodeZip ts xs with
      | .ok ys => .ok (.tupV ys)
      | .error e => .error e
    else .error (.typeErr "tuple arity mismatch")
  | .tupleFix _, _ => .error (.typeErr "value is not a sequence")
  | .tupleVar t, .listV xs =>
    match decodeAll t xs with
    | .ok ys => .ok (.tupV ys)
    | .error e => .error e
  | .tupleVar _, _ => .error (.typeErr "value is not a sequence")
  | .listT t, .listV xs =>
    match decodeAll t xs with
    | .ok ys => .ok (.listV ys)
    | .error e => .error e
  | .listT _, _ => .error (.typeErr "value is not a sequence")
  | .setT t, .listV xs =>
    match decodeAll t xs with
    | .ok ys => .ok (.setV ys)
    | .error e => .error e
  | .setT _, _ => .error (.typeErr "value is not a sequence")
  | .optT _, .nullV => .ok .nullV
  | .optT t, v => decode_value t v
  | .unionT vs, v =>
    if vs.allRecords then
      match v with
      | .dictV kvs =>
        match collectTagGo vs none with
        | .error e => .error e
        | .ok tagName =>
          match kvs.lookup tagName with
          | none => .error .keyErr
          | some tagVal => decodeUnionPick vs tagVal (.dictV kvs)
      | _ => .error (.typeErr "tagged union needs a mapping")
    else .error (.typeErr "union type is not callable")
  | .recordT fs, .dictV kvs =>
    match decodeFields fs kvs with
    | .ok out => .ok (.recordV out)
    | .error e => .error e
  | .recordT _, _ => .error (.typeErr "from_dict needs a mapping")
  | .anyT, v => .ok v
  | .lit s, .strV s2 =>
    if s2 = s then .ok (.strV s2) else .error (.typeErr "literal mismatch")
  | .lit _, _ => .error (.typeErr "literal mismatch")
  | .intT, .intV n => .ok (.intV n)
  | .intT, .boolV b => .ok (.intV (if b then 1 else 0))
  | .intT, .strV s =>
    match pyParseInt s with
    | some n => .ok (.intV n)
    | none => .error (.valueErr "invalid literal for int")
  | .intT, _ => .error (.typeErr "int argument")
  | .strT, .strV s => .ok (.strV s)
  | .strT, .intV n => .ok (.strV (toString n))
  | .strT, .boolV b => .ok (.strV (if b then "True" else "False"))
  | .strT, .nullV => .ok (.strV "None")
  | .strT, _ => .error (.typeErr "str of a container is not modelled")
  | .boolT, v => .ok (.boolV (pyTruth v))
/-- Element-wise decode of a fixed tuple after the arity check; zip over the
argument types and the input elements. -/
def decodeZip : TyList → VList → Except PyErr VList
  | .nil, _ => .ok .nil
  | .cons t ts, .cons v vs =>
    match decode_value t v with
    | .ok x =>
      match decodeZip ts vs with
      | .ok xs => .ok (.cons x xs)
      | .error e => .error e
    | .error e => .error e
  | .cons _ _, .nil => .ok .nil
/-- Element-wise decode at one element type, for variadic tuples, lists and
sets. -/
def decodeAll : PyType → VList → Except PyErr VList
  | _, .nil => .ok .nil
  | t, .cons v vs =>
    match decode_value t v with
    | .ok x =>
      match decodeAll t vs with
      | .ok xs => .ok (.cons x xs)
      | .error e => .error e
    | .error e => .error e
/-- Subscript of tags_to_variants with the input discriminator value, fused
with the recursion into the selected variant: the last variant carrying the
value wins (dict assignment overwrites), and no match raises KeyError. -/
def decodeUnionPick : TyList → PyVal → PyVal → Except PyErr PyVal
  | .nil, _, _ => .error .keyErr
  | .cons t rest, tagVal, v =>
    if tagKeyMatches t tagVal && !rest.hasTagVal tagVal then decode_value t v
    else decodeUnionPick rest tagVal v
/-- The field walk of from_dict: every declared field is decoded from the
input mapping at its declared type, a missing entry defaulting to None
first; the field named codecs is special-cased to the dedicated pipeline
route (parse_codecs, outside src, modelled as an opaque-free failure marker
and excluded by well-formedness). -/
def decodeFields : FieldDecls → VFields → Except PyErr VFields
  | .nil, _ => .ok .nil
  | .cons name _tagged ty rest, data =>
    if name = "codecs" then .error .externalCodecs
    else
      match decode_value ty ((data.lookup name).getD .nullV) with
      | .ok v =>
        match decodeFields rest data with
        | .ok vs => .ok (.cons name v vs)
        | .error e => .error e
      | .error e => .error e
end

/-- Function from_dict: decode every declared field from the mapping and
construct the dataclass instance with the results, in declaration order. -/
def from_dict (data : VFields) (fs : FieldDecls) : Except PyErr PyVal :=
  match decodeFields fs data with
  | .ok out => .ok (.recordV out)
  | .error e => .error e

/-- Function encode: to_dict on the dataclass instance, then json.dumps
(modelled as the dumpable check plus the dumps/loads normalization on the
resulting document). asdict raises TypeError on non-dataclass input. -/
def encode (r : PyVal) : Except PyErr PyVal :=
  match r with
  | .recordV kvs =>
    if dumpable (.dictV (to_dict kvs)) then .ok (jsonRT (.dictV (to_dict kvs)))
    else .error (.typeErr "Object is not JSON serializable")
  | _ => .error (.typeErr "asdict called on a non-dataclass")

/-- Function decode: json.loads on the document (already a value tree here)
then from_dict against the target dataclass type. A non-mapping document
fails the attribute access data.get in the source. -/
def decode (doc : PyVal) (fs : FieldDecls) : Except PyErr PyVal :=
  match doc with
  | .dictV kvs => from_dict kvs fs
  | _ => .error (.typeErr "from_dict needs a mapping")

/-- Membership of a type among the variants of a union. -/
inductive TyMem : PyType → TyList → Prop where
  | head (t : PyType) (rest : TyList) : TyMem t (.cons t rest)
  | tail {t : PyType} {rest : TyList} (t2 : PyType) : TyMem t rest → TyMem t (.cons t2 rest)

/-- Well-formedness of a union declaration as a single boolean: all variants
are dataclasses, the variant loop accepts them (exactly one tagged literal
field each, agreeing names), and the literal tags are pairwise distinct. -/
def unionDeclOK (vs : TyList) : Bool :=
  vs.allRecords && (collectTagGo vs none).isOk && decide (tagValues vs).Nodup

mutual
/-- Well-typedness of a value at a target type: the supported records of
claim C1. Sets hold scalar elements (hashability); a value at a union type
is well-typed at one of its variants; Any fields hold JSON-native values;
dataclass instances align field-for-field with their declaration. -/
inductive WT : PyVal → PyType → Prop where
  | intI (n : Int) : WT (.intV n) .intT
  | strI (s : String) : WT (.strV s) .strT
  | boolI (b : Bool) : WT (.boolV b) .boolT
  | litI (s : String) : WT (.strV s) (.lit s)
  | anyI (v : PyVal) : jsonStable v = true → WT v .anyT
  | tupFixI {xs : VList} {ts : TyList} : WTZip xs ts → WT (.tupV xs) (.tupleFix ts)
  | tupVarI {xs : VList} {t : PyType} : WTAll xs t → WT (.tupV xs) (.tupleVar t)
  | listI {xs : VList} {t : PyType} : WTAll xs t → WT (.listV xs) (.listT t)
  | setI {xs : VList} {t : PyType} : WTAll xs t → WT (.setV xs) (.setT t)
  | optNullI (t : PyType) : WT .nullV (.optT t)
  | optSomeI {v : PyVal} {t : PyType} : WT v t → WT v (.optT t)
  | unionI {v : PyVal} {vt : PyType} {vs : TyList} :
      TyMem vt vs → WT v vt → WT v (.unionT vs)
  | recordI {kvs : VFields} {fs : FieldDecls} : WTFields kvs fs → WT (.recordV kvs) (.recordT fs)
inductive WTAll : VList → PyType → Prop where
  | nil (t : PyType) : WTAll .nil t
  | cons {v : PyVal} {t : PyType} {rest : VList} :
      WT v t → WTAll rest t → WTAll (.cons v rest) t
inductive WTZip : VList → TyList → Prop where
  | nil : WTZip .nil .nil
  | cons {v : PyVal} {t : PyType} {rest : VList} {ts : TyList} :
      WT v t → WTZip rest ts → WTZip (.cons v rest) (.cons t ts)
inductive WTFields : VFields → FieldDecls → Prop where
  | nil : WTFields .nil .nil
  | cons {name : String} {tagged : Bool} {v : PyVal} {ty : PyType} {kvs : VFields}
      {fs : FieldDecls} :
      WT v ty → WTFields kvs fs → WTFields (.cons name v kvs) (.cons name tagged ty fs)
end

mutual
/-- Well-formedness of a target type: record field names are distinct and
avoid the special-cased name codecs, set elements are scalars, and unions
satisfy the tag declaration discipline. -/
inductive WFT : PyType → Prop where
  | intW : WFT .intT
  | strW : WFT .strT
  | boolW : WFT .boolT
  | anyW : WFT .anyT
  | litW (s : String) : WFT (.lit s)
  | tupFixW {ts : TyList} : WFTL ts → WFT (.tupleFix ts)
  | tupVarW {t : PyType} : WFT t → WFT (.tupleVar t)
  | listW {t : PyType} : WFT t → WFT (.listT t)
  | setW {t : PyType} : t.isScalarT = true → WFT (.setT t)
  | optW {t : PyType} : WFT t → WFT (.optT t)
  | unionW {vs : TyList} : unionDeclOK vs = true → WFTL vs → WFT (.unionT vs)
  | recordW {fs : FieldDecls} : fs.names.Nodup → "codecs" ∉ fs.names → WFTF fs →
      WFT (.recordT fs)
inductive WFTL : TyList → Prop where
  | nil : WFTL .nil
  | cons {t : PyType} {rest : TyList} : WFT t → WFTL rest → WFTL (.cons t rest)
inductive WFTF : FieldDecls → Prop where
  | nil : WFTF .nil
  | cons {name : String} {tagged : Bool} {ty : PyType} {rest : FieldDecls} :
      WFT ty → WFTF rest → WFTF (.cons name tagged ty rest)
end

/-- Per-pair lookup facts: every field of the instance is found in the
decode input with its transported value. -/
def DataAligned (F : PyVal → PyVal) (data : VFields) : VFields → Prop
  | .nil => True
  | .cons n v rest => data.lookup n = some (F v) ∧ DataAligned F data rest

/-- Variant A of the tagged-union scenario of claim C3: discriminator field
x with literal a, plus an int payload field. -/
def AFields : FieldDecls := .cons "x" true (.lit "a") (.cons "payload" false .intT .nil)

/-- Variant B: discriminator field x with literal b, plus a bool field. -/
def BFields : FieldDecls := .cons "x" true (.lit "b") (.cons "flag" false .boolT .nil)

/-- The two-variant union of claim C3. -/
def ABVariants : TyList := .cons (.recordT AFields) (.cons (.recordT BFields) .nil)

/-- A variant declaring zero tagged fields. -/
def AZeroTagFields : FieldDecls := .cons "x" false (.lit "a") .nil

/-- A variant declaring two tagged fields. -/
def ATwoTagFields : FieldDecls :=
  .cons "x" true (.lit "a") (.cons "y" true (.lit "c") .nil)

/-- A variant whose tag field name disagrees with the one of variant A. -/
def BTagYFields : FieldDecls := .cons "y" true (.lit "b") .nil

/-- A variant whose tagged field is not a literal type. -/
def ANonLitTagFields : FieldDecls := .cons "x" true .intT .nil

/-- An input mapping selecting variant A. -/
def aInput : VFields := .cons "x" (.strV "a") (.cons "payload" (.intV 7) .nil)

/-- An input mapping with the discriminator field absent. -/
def noTagInput : VFields := .cons "payload" (.intV 7) .nil

/-- An input mapping whose discriminator value matches no variant. -/
def cTagInput : VFields := .cons "x" (.strV "c") .nil

/-- The fixed-tuple type of claim C9, with arity two. -/
def pairTypes : TyList := .cons .intT (.cons .strT .nil)

/-- A three-element input sequence for claim C9. -/
def threeElems : VList := .cons (.intV 1) (.cons (.intV 2) (.cons (.intV 3) .nil))

/-- Claim C1 counterexample data: a record holding a set, nested inside
another record. -/
def innerSetFields : FieldDecls := .cons "a" false (.setT .intT) .nil

/-- The outer record type of the counterexample. -/
def outerFields : FieldDecls := .cons "inner" false (.recordT innerSetFields) .nil

/-- The outer record instance with the set value nested one level down. -/
def nestedSetKvs : VFields :=
  .cons "inner" (.recordV (.cons "a" (.setV (.cons (.intV 0) .nil)) .nil)) .nil

/-- Claim C1 witness data: field declarations exercising variadic tuples,
fixed tuples, a tagged union, a top-level set, a list, a nested record and
an optional field. -/
def sampleFields : FieldDecls :=
  .cons "shape" false (.tupleVar .intT)
  (.cons "pair" false (.tupleFix pairTypes)
  (.cons "cke" false (.unionT ABVariants)
  (.cons "tags" false (.setT .intT)
  (.cons "items" false (.listT .strT)
  (.cons "inner2" false (.recordT (.cons "x0" false .intT .nil))
  (.cons "maybe" false (.optT .intT) .nil))))))

/-- The witness record instance, well-typed at sampleFields. -/
def sampleKvs : VFields :=
  .cons "shape" (.tupV (.cons (.intV 2) (.cons (.intV 3) .nil)))
  (.cons "pair" (.tupV (.cons (.intV 1) (.cons (.strV "u") .nil)))
  (.cons "cke" (.recordV aInput)
  (.cons "tags" (.setV (.cons (.intV 0) (.cons (.intV 1) .nil)))
  (.cons "items" (.listV (.cons (.strV "p") (.cons (.strV "q") .nil)))
  (.cons "inner2" (.recordV (.cons "x0" (.intV 5) .nil))
  (.cons "maybe" .nullV .nil))))))

end Serialize

/-! Theorems about the chunk key encodings. -/

namespace ChunkKeys

theorem natDigitsAux_ne_nil : ∀ f n, n < f → natDigitsAux f n ≠ [] := by
  intro f
  induction f with
  | zero => omega
  | succ f ih =>
    intro n _
    by_cases h10 : n < 10
    · simp [natDigitsAux, h10]
    · simp only [natDigitsAux, if_neg h10]
      exact List.append_ne_nil_of_right_ne_nil _ (by simp)

theorem digitVal?_natDigit (k : Nat) (h : k < 10) : digitVal? (natDigit k) = some k := by
  interval_cases k <;> decide

theorem digitVal?_isSome_of_mem_natDigitsAux :
    ∀ f n c, c ∈ natDigitsAux f n → (digitVal? c).isSome := by
  intro f
  induction f with
  | zero => intro n c hc; simp [natDigitsAux] at hc
  | succ f ih =>
    intro n c hc
    by_cases h10 : n < 10
    · simp only [natDigitsAux, if_pos h10, List.mem_singleton] at hc
      subst hc
      rw [digitVal?_natDigit n h10]
      rfl
    · simp only [natDigitsAux, if_neg h10, List.mem_append, List.mem_singleton] at hc
      rcases hc with hc | hc
      · exact ih _ _ hc
      · subst hc
        rw [digitVal?_natDigit _ (Nat.mod_lt _ (by omega))]
        rfl

theorem pyIntGo_append (s t : PyStr) : ∀ acc,
    pyIntGo acc (s ++ t) = (pyIntGo acc s).bind fun a => pyIntGo a t := by
  induction s with
  | nil => intro acc; rfl
  | cons c cs ih =>
    intro acc
    simp only [List.cons_append, pyIntGo]
    cases digitVal? c with
    | some d => exact ih _
    | none => rfl

theorem pyIntGo_natDigitsAux : ∀ f n acc, n < f →
    pyIntGo acc (natDigitsAux f n) = some (acc * 10 ^ (natDigitsAux f n).length + n) := by
  intro f
  induction f with
  | zero => omega
  | succ f ih =>
    intro n acc hn
    by_cases h10 : n < 10
    · simp only [natDigitsAux, if_pos h10, pyIntGo, digitVal?_natDigit n h10,
        List.length_singleton, pow_one]
      congr 1
      ring
    · have hdiv : n / 10 < f := by
        have h1 : n / 10 < n := Nat.div_lt_self (by omega) (by omega)
        omega
      simp only [natDigitsAux, if_neg h10]
      rw [pyIntGo_append]
      rw [ih (n / 10) acc hdiv]
      have hd : digitVal? (natDigit (n % 10)) = some (n % 10) :=
        digitVal?_natDigit _ (Nat.mod_lt _ (by omega))
      simp only [Option.bind, pyIntGo, hd, List.length_append, List.length_singleton]
      congr 1
      have key : 10 * ((acc * 10 ^ (natDigitsAux f (n / 10)).length + n / 10)) + n % 10
          = acc * 10 ^ ((natDigitsAux f (n / 10)).length + 1) + (10 * (n / 10) + n % 10) := by
        rw [pow_succ]; ring
      rw [key, Nat.div_add_mod]

theorem pyInt?_pyStrOfNat (n : Nat) : pyInt? (pyStrOfNat n) = some n := by
  have hne : pyStrOfNat n ≠ [] := natDigitsAux_ne_nil _ _ (Nat.lt_succ_self n)
  rw [pyInt?, if_neg hne, pyStrOfNat, pyIntGo_natDigitsAux (n + 1) n 0 (Nat.lt_succ_self n)]
  simp

theorem parseAll_map_pyStrOfNat (coords : List Nat) :
    parseAll (coords.map pyStrOfNat) = some coords := by
  induction coords with
  | nil => rfl
  | cons c cs ih => simp [parseAll, pyInt?_pyStrOfNat, ih]

theorem sep_not_mem_pyStrOfNat (sep : Char) (hsep : sep = '.' ∨ sep = '/') (n : Nat) :
    sep ∉ pyStrOfNat n := by
  intro hmem
  have hsome := digitVal?_isSome_of_mem_natDigitsAux _ _ _ hmem
  have hnone : digitVal? sep = none := by
    rcases hsep with h | h <;> subst h <;> decide
  rw [hnone] at hsome
  simp at hsome

/-- Splitting the v2 join recovers the printed coordinate segments. -/
theorem splitOn_v2_join (sep : Char) (hsep : sep = '.' ∨ sep = '/') (coords : List Nat)
    (hne : coords ≠ []) :
    (List.intercalate [sep] (coords.map pyStrOfNat)).splitOn sep = coords.map pyStrOfNat := by
  apply List.splitOn_intercalate
  · intro l hl
    obtain ⟨n, _, rfl⟩ := List.mem_map.mp hl
    exact sep_not_mem_pyStrOfNat sep hsep n
  · simpa using hne

theorem v2_join_ne_nil (sep : Char) (hsep : sep = '.' ∨ sep = '/') (coords : List Nat)
    (hne : coords ≠ []) :
    List.intercalate [sep] (coords.map pyStrOfNat) ≠ [] := by
  intro h
  have hsp := splitOn_v2_join sep hsep coords hne
  rw [h, List.splitOn_nil] at hsp
  have : ([] : PyStr) ∈ coords.map pyStrOfNat := by rw [← hsp]; simp
  obtain ⟨n, _, hn⟩ := List.mem_map.mp this
  exact natDigitsAux_ne_nil _ _ (Nat.lt_succ_self n) hn

/-- Unfolding of the two-or-more-segment join. -/
theorem intercalate_cons_cons (sep : Char) (x : PyStr) (y : PyStr) (zs : List PyStr) :
    List.intercalate [sep] (x :: y :: zs) = x ++ sep :: List.intercalate [sep] (y :: zs) := by
  simp [List.intercalate, List.intersperse_cons_cons]

/-- Claim C2 counterexample. The round-trip equation from the spec fails at
two explicit inputs: under the default scheme with separator slash, decoding
the encoding of the coordinates (1, 2) fails (the decoder drops only the
character c and then feeds the empty leading segment to int), and under the
v2 scheme with separator dot, decoding the encoding of the empty tuple yields
the one-element tuple (0,) rather than the empty tuple. -/
theorem c2_chunk_key_counterexample :
    ChunkKeyEncoding.decode_chunk_key (.defaultE ⟨'/'⟩)
        (ChunkKeyEncoding.encode_chunk_key (.defaultE ⟨'/'⟩) [1, 2]) ≠ some [1, 2]
    ∧ ChunkKeyEncoding.decode_chunk_key (.v2E ⟨'.'⟩)
        (ChunkKeyEncoding.encode_chunk_key (.v2E ⟨'.'⟩) []) ≠ some [] := by
  constructor <;> decide

/-- Claim C2, amended. For either allowed separator: the v2 scheme
round-trips every nonempty coordinate tuple, while the empty tuple encodes to
the literal 0 which decodes to the one-element tuple (0,); the default scheme
round-trips exactly the empty tuple, while for any nonempty tuple the decode
of the encode fails, because the decoder strips only the character c and the
leading empty segment makes int raise ValueError. -/
theorem c2_chunk_key_amended (sep : Char) (hsep : sep = '.' ∨ sep = '/') (coords : List Nat) :
    (coords ≠ [] →
      ChunkKeyEncoding.decode_chunk_key (.v2E ⟨sep⟩)
        (ChunkKeyEncoding.encode_chunk_key (.v2E ⟨sep⟩) coords) = some coords)
    ∧ ChunkKeyEncoding.decode_chunk_key (.v2E ⟨sep⟩)
        (ChunkKeyEncoding.encode_chunk_key (.v2E ⟨sep⟩) []) = some [0]
    ∧ ChunkKeyEncoding.decode_chunk_key (.defaultE ⟨sep⟩)
        (ChunkKeyEncoding.encode_chunk_key (.defaultE ⟨sep⟩) []) = some []
    ∧ (coords ≠ [] →
      ChunkKeyEncoding.decode_chunk_key (.defaultE ⟨sep⟩)
        (ChunkKeyEncoding.encode_chunk_key (.defaultE ⟨sep⟩) coords) = none) := by
  have hsep0 : ¬ ('0' == sep) = true := by
    rcases hsep with h | h <;> subst h <;> decide
  refine ⟨?_, ?_, ?_, ?_⟩
  · intro hne
    have hkey := v2_join_ne_nil sep hsep coords hne
    simp only [ChunkKeyEncoding.encode_chunk_key, ChunkKeyEncoding.decode_chunk_key,
      if_neg hkey]
    rw [splitOn_v2_join sep hsep coords hne, parseAll_map_pyStrOfNat]
  · simp only [ChunkKeyEncoding.encode_chunk_key, List.map_nil]
    rw [show List.intercalate [sep] ([] : List PyStr) = [] from rfl, if_pos rfl]
    simp only [ChunkKeyEncoding.decode_chunk_key, List.splitOn]
    rw [List.splitOnP_eq_single _ _ (by intro y hy; simp at hy; subst hy; exact hsep0)]
    rfl
  · simp only [ChunkKeyEncoding.encode_chunk_key, List.map_nil]
    rw [show List.intercalate [sep] [['c']] = ['c'] by
      simp [List.intercalate, List.intersperse_singleton]]
    simp [ChunkKeyEncoding.decode_chunk_key]
  · intro hne
    obtain ⟨c0, cs, rfl⟩ := List.exists_cons_of_ne_nil hne
    simp only [ChunkKeyEncoding.encode_chunk_key, List.map_cons]
    rw [intercalate_cons_cons]
    have hkey : ('c' :: (sep :: List.intercalate [sep] (pyStrOfNat c0 :: cs.map pyStrOfNat))
        : PyStr) ≠ ['c'] := by simp
    simp only [ChunkKeyEncoding.decode_chunk_key, List.singleton_append, if_neg hkey,
      List.drop_succ_cons, List.drop_zero, List.splitOn, List.splitOnP_cons, beq_self_eq_true,
      if_pos]
    rfl

/-- Witness for the amended claim C2 at separator dot and coordinates (1, 2):
both hypotheses are discharged at concrete inputs. -/
theorem c2_chunk_key_witness :
    ChunkKeyEncoding.decode_chunk_key (.v2E ⟨'.'⟩)
        (ChunkKeyEncoding.encode_chunk_key (.v2E ⟨'.'⟩) [1, 2]) = some [1, 2]
    ∧ ChunkKeyEncoding.decode_chunk_key (.defaultE ⟨'.'⟩)
        (ChunkKeyEncoding.encode_chunk_key (.defaultE ⟨'.'⟩) [1, 2]) = none :=
  ⟨(c2_chunk_key_amended '.' (Or.inl rfl) [1, 2]).1 (by decide),
   (c2_chunk_key_amended '.' (Or.inl rfl) [1, 2]).2.2.2 (by decide)⟩

/-- Claim C8: the concrete chunk key equalities from the spec. Default scheme
with separator slash: the empty tuple encodes to c, the pair (1, 2) encodes
to c/1/2, and the bare key c decodes to the empty tuple. V2 scheme with
separator dot: the empty tuple encodes to 0 and the pair (1, 2) encodes
to 1.2. -/
theorem c8_concrete_chunk_keys :
    ChunkKeyEncoding.encode_chunk_key (.defaultE ⟨'/'⟩) [] = "c".toList
    ∧ ChunkKeyEncoding.encode_chunk_key (.defaultE ⟨'/'⟩) [1, 2] = "c/1/2".toList
    ∧ ChunkKeyEncoding.decode_chunk_key (.defaultE ⟨'/'⟩) "c".toList = some []
    ∧ ChunkKeyEncoding.encode_chunk_key (.v2E ⟨'.'⟩) [] = "0".toList
    ∧ ChunkKeyEncoding.encode_chunk_key (.v2E ⟨'.'⟩) [1, 2] = "1.2".toList := by
  refine ⟨?_, ?_, ?_, ?_, ?_⟩ <;> decide

/-- Claim C6 evaluated on the code: decoding a chunk-key-encoding value tree
with an absent configuration does not construct a defaulted variant; the
normalized configuration mapping holds the key separator, which the generated
init of the dataclass rejects as an unexpected keyword argument, so from_dict
raises TypeError for both schemes, and likewise when a configuration mapping
is present. -/
theorem c6_from_dict_raises_eval :
    ChunkKeyEncoding.from_dict (.mapping ⟨"default".toList, none⟩)
      = .error "TypeError: init got an unexpected keyword argument"
    ∧ ChunkKeyEncoding.from_dict (.mapping ⟨"v2".toList, none⟩)
      = .error "TypeError: init got an unexpected keyword argument"
    ∧ ChunkKeyEncoding.from_dict
        (.mapping ⟨"default".toList, some [("separator".toList, ".".toList)]⟩)
      = .error "TypeError: init got an unexpected keyword argument" := by
  refine ⟨?_, ?_, ?_⟩ <;> rfl

/-- Claim C7 evaluated on the code: parse_separator does reject a separator
outside the allowed pair, but it is never invoked during construction; the
post-init hook of DefaultChunkKeyEncoding checks only the name and the one of
V2ChunkKeyEncoding checks nothing, so constructing either encoding with the
disallowed separator x succeeds. Only the unrecognized-discriminator half of
the claim holds: from_dict raises ValueError on an unknown name. -/
theorem c7_separator_unvalidated_eval :
    parse_separator "x".toList = .error "Expected a . or / separator"
    ∧ mkDefaultChunkKeyEncoding "default".toList ⟨'x'⟩ = .ok (.defaultE ⟨'x'⟩)
    ∧ mkV2ChunkKeyEncoding "v2".toList ⟨'x'⟩ = .ok (.v2E ⟨'x'⟩)
    ∧ ChunkKeyEncoding.from_dict (.mapping ⟨"weird".toList, none⟩)
      = .error "Unknown chunk key encoding" := by
  refine ⟨?_, ?_, ?_, ?_⟩ <;> rfl

/-- Claim C10: from_dict on a value that is already a ChunkKeyEncoding
instance returns exactly that instance, for every variant and separator,
with no re-validation, defaulting or copying. -/
theorem c10_from_dict_passthrough (e : ChunkKeyEncoding) :
    ChunkKeyEncoding.from_dict (.alreadyEncoding e) = .ok e := rfl

end ChunkKeys

/-! Theorems about the metadata document resolver. -/

namespace MetaIO

/-- Claim C5: _build_paths is a pure function of the descriptor (it is a Lean
function of exactly the pair of arguments, so determinism is intrinsic);
every returned key list is free of duplicates; the fully-unknown descriptor
yields exactly the four-element key set; and the array descriptor with known
format version 3 yields exactly the single-document key. -/
theorem c5_build_paths_spec :
    (∀ (node_type : Option NodeType) (zarr_format : Option ZarrFormat),
      (_build_paths node_type zarr_format).Nodup)
    ∧ (_build_paths none none).toFinset
      = ({ZARR_JSON, ZATTRS_JSON, ZGROUP_JSON, ZARRAY_JSON} : Finset String)
    ∧ (_build_paths none none).length = 4
    ∧ _build_paths (some .array) (some .v3) = [ZARR_JSON] := by
  refine ⟨?_, ?_, ?_, ?_⟩
  · intro node_type zarr_format
    rcases node_type with _ | nt <;> [skip; cases nt] <;>
      rcases zarr_format with _ | zf <;> first
        | decide
        | (cases zf <;> decide)
  · decide
  · decide
  · decide

/-- Claim C4 evaluated on the code: with both legacy metadata documents
present at one path and the single-document key absent, _gather_documents
with unknown node type and unknown format version completes without raising
(it returns the None value), and in fact no input whatsoever makes it surface
ContainsArrayAndGroupError, even though that distinct error class is declared
in zarr/errors.py for exactly this inconsistent state. -/
theorem c4_no_ambiguity_error_raised :
    _gather_documents ambiguousStore none none = .ok ()
    ∧ ∀ (store : Store) (node_type : Option NodeType) (zarr_format : Option ZarrFormat),
        _gather_documents store node_type zarr_format
          ≠ .error .containsArrayAndGroupError := by
  constructor
  · rfl
  · intro store node_type zarr_format
    rcases zarr_format with _ | zf
    · simp [_gather_documents]
    · cases zf
      · simp [_gather_documents]
      · simp only [_gather_documents]
        split <;> simp

end MetaIO

/-! Theorems about the generic structured-value codec. -/

namespace Serialize

/-- Single-motive induction for VFields (the joint recursor of the mutual
value types has several motives, which the induction tactic rejects). -/
theorem vfieldsInduction {motive : VFields → Prop} (kvs : VFields) (hnil : motive .nil)
    (hcons : ∀ n v rest, motive rest → motive (.cons n v rest)) : motive kvs :=
  match kvs with
  | .nil => hnil
  | .cons n v rest => hcons n v rest (vfieldsInduction rest hnil hcons)

/-- Single-motive induction for VList. -/
theorem vlistInduction {motive : VList → Prop} (xs : VList) (hnil : motive .nil)
    (hcons : ∀ v rest, motive rest → motive (.cons v rest)) : motive xs :=
  match xs with
  | .nil => hnil
  | .cons v rest => hcons v rest (vlistInduction rest hnil hcons)

/-- Single-motive induction for TyList. -/
theorem tyListInduction {motive : TyList → Prop} (ts : TyList) (hnil : motive .nil)
    (hcons : ∀ t rest, motive rest → motive (.cons t rest)) : motive ts :=
  match ts with
  | .nil => hnil
  | .cons t rest => hcons t rest (tyListInduction rest hnil hcons)

/-- Single-motive induction for FieldDecls. -/
theorem fieldDeclsInduction {motive : FieldDecls → Prop} (fs : FieldDecls)
    (hnil : motive .nil)
    (hcons : ∀ n tg ty rest, motive rest → motive (.cons n tg ty rest)) : motive fs :=
  match fs with
  | .nil => hnil
  | .cons n tg ty rest => hcons n tg ty rest (fieldDeclsInduction rest hnil hcons)

theorem isRecordT_exists {t : PyType} (h : t.isRecordT = true) : ∃ fs, t = .recordT fs := by
  cases t <;> simp [PyType.isRecordT] at h ⊢

theorem tyMem_sizeOf_lt {t : PyType} {vs : TyList} (h : TyMem t vs) :
    sizeOf t < sizeOf (PyType.unionT vs) := by
  have hlt : sizeOf t < sizeOf vs := by
    induction h with
    | head rest => simp <;> omega
    | tail t2 _ ih => simp <;> omega
  simp
  omega

theorem wftl_tyMem {vs : TyList} {t : PyType} (hl : WFTL vs) (hm : TyMem t vs) : WFT t := by
  induction hm with
  | head rest => cases hl; assumption
  | tail t2 _ ih => cases hl; exact ih (by assumption)

theorem allRecords_tyMem {vs : TyList} {t : PyType} (ha : TyList.allRecords vs = true)
    (hm : TyMem t vs) : ∃ fs, t = .recordT fs := by
  induction hm with
  | head rest =>
    simp only [TyList.allRecords, Bool.and_eq_true] at ha
    exact isRecordT_exists ha.1
  | tail t2 hm2 ih =>
    simp only [TyList.allRecords, Bool.and_eq_true] at ha
    exact ih ha.2

theorem asdictFields_names (kvs : VFields) : (asdictFields kvs).names = kvs.names := by
  induction kvs using vfieldsInduction with
  | hnil => rfl
  | hcons n v rest ih => simp [asdictFields, VFields.names, ih]

theorem mapVals_names (f : PyVal → PyVal) (kvs : VFields) :
    (kvs.mapVals f).names = kvs.names := by
  induction kvs using vfieldsInduction with
  | hnil => rfl
  | hcons n v rest ih => simp [VFields.mapVals, VFields.names, ih]

theorem jsonRTFields_names (kvs : VFields) : (jsonRTFields kvs).names = kvs.names := by
  induction kvs using vfieldsInduction with
  | hnil => rfl
  | hcons n v rest ih => simp [jsonRTFields, VFields.names, ih]

theorem jsonRTFields_asdictFields (kvs : VFields) :
    jsonRTFields (asdictFields kvs) = kvs.mapVals fun v => jsonRT (asdictVal v) := by
  induction kvs using vfieldsInduction with
  | hnil => rfl
  | hcons n v rest ih => simp [jsonRTFields, asdictFields, VFields.mapVals, ih]

theorem jsonRTFields_to_dict (kvs : VFields) :
    jsonRTFields (to_dict kvs) = kvs.mapVals fun v => jsonRT (encode_value (asdictVal v)) := by
  rw [to_dict]
  induction kvs using vfieldsInduction with
  | hnil => rfl
  | hcons n v rest ih =>
    simp only [asdictFields, VFields.mapVals, jsonRTFields]
    rw [show jsonRTFields ((asdictFields rest).mapVals encode_value)
        = rest.mapVals fun v => jsonRT (encode_value (asdictVal v)) from ih]

theorem lookup_mapVals (f : PyVal → PyVal) (kvs : VFields) (n : String) :
    (kvs.mapVals f).lookup n = (kvs.lookup n).map f := by
  induction kvs using vfieldsInduction with
  | hnil => rfl
  | hcons n2 v rest ih =>
    simp only [VFields.mapVals, VFields.lookup]
    by_cases h : n2 = n
    · simp [h]
    · simp [h, ih]

theorem wtFields_names {kvs : VFields} {fs : FieldDecls} (h : WTFields kvs fs) :
    kvs.names = fs.names := by
  induction kvs using vfieldsInduction generalizing fs with
  | hnil => cases h; rfl
  | hcons n v rest ih =>
    cases h with
    | cons hv hrest => simp [VFields.names, FieldDecls.names, ih hrest]

theorem wtFields_lookup {kvs : VFields} {fs : FieldDecls} (h : WTFields kvs fs)
    {n : String} {tg : Bool} {ty : PyType} (hl : fs.lookupTy n = some (tg, ty)) :
    ∃ v, kvs.lookup n = some v ∧ WT v ty := by
  induction kvs using vfieldsInduction generalizing fs with
  | hnil => cases h; simp [FieldDecls.lookupTy] at hl
  | hcons n2 v rest ih =>
    cases h with
    | cons hv hrest =>
      simp only [FieldDecls.lookupTy] at hl
      simp only [VFields.lookup]
      by_cases heq : n2 = n
      · subst heq
        rw [if_pos rfl] at hl
        have hty : ty = _ := (Prod.mk.inj (Option.some.inj hl)).2.symm
        subst hty
        exact ⟨v, if_pos rfl, hv⟩
      · rw [if_neg heq] at hl
        rw [if_neg heq]
        exact ih hrest hl

theorem dumpableFields_parts {n : String} {v : PyVal} {kvs : VFields} :
    dumpableFields (.cons n v kvs) = true → dumpable v = true ∧ dumpableFields kvs = true := by
  intro h
  simpa [dumpableFields, Bool.and_eq_true] using h

theorem dumpableList_parts {v : PyVal} {xs : VList} :
    dumpableList (.cons v xs) = true → dumpable v = true ∧ dumpableList xs = true := by
  intro h
  simpa [dumpableList, Bool.and_eq_true] using h

theorem asdictVal_nullV_iff (v : PyVal) : asdictVal v = .nullV ↔ v = .nullV := by
  cases v <;> simp [asdictVal]

theorem jsonRT_nullV_iff (v : PyVal) : jsonRT v = .nullV ↔ v = .nullV := by
  cases v <;> simp [jsonRT]

theorem asdictList_length (xs : VList) : (asdictList xs).length = xs.length := by
  induction xs using vlistInduction with
  | hnil => rfl
  | hcons v rest ih => simp [asdictList, VList.length, ih]

theorem jsonRTList_length (xs : VList) : (jsonRTList xs).length = xs.length := by
  induction xs using vlistInduction with
  | hnil => rfl
  | hcons v rest ih => simp [jsonRTList, VList.length, ih]

theorem wtZip_length {xs : VList} {ts : TyList} (h : WTZip xs ts) :
    ts.length = xs.length := by
  induction xs using vlistInduction generalizing ts with
  | hnil => cases h; rfl
  | hcons v rest ih =>
    cases h with
    | cons hv hrest => simp [VList.length, TyList.length, ih hrest]

theorem scalar_asdict {t : PyType} {v : PyVal} (hs : t.isScalarT = true) (hw : WT v t) :
    asdictVal v = v := by
  cases hw <;> first | rfl | simp [PyType.isScalarT] at hs

theorem scalar_jsonRT {t : PyType} {v : PyVal} (hs : t.isScalarT = true) (hw : WT v t) :
    jsonRT v = v := by
  cases hw <;> first | rfl | simp [PyType.isScalarT] at hs

theorem scalar_dumpable {t : PyType} {v : PyVal} (hs : t.isScalarT = true) (hw : WT v t) :
    dumpable v = true := by
  cases hw <;> first | rfl | simp [PyType.isScalarT] at hs

theorem scalar_decode {t : PyType} {v : PyVal} (hs : t.isScalarT = true) (hw : WT v t) :
    decode_value t v = .ok v := by
  cases hw <;> first
    | (simp [decode_value, pyTruth]; done)
    | simp [PyType.isScalarT] at hs

mutual
theorem jsonStable_asdict (v : PyVal) (h : jsonStable v = true) : asdictVal v = v :=
  match v, h with
  | .nullV, _ => rfl
  | .boolV _, _ => rfl
  | .intV _, _ => rfl
  | .strV _, _ => rfl
  | .listV xs, h => by
    simp only [asdictVal]
    rw [jsonStable_asdictList xs (by simpa [jsonStable] using h)]
  | .dictV kvs, h => by
    simp only [asdictVal]
    rw [jsonStable_asdictFields kvs (by simpa [jsonStable] using h)]
  | .tupV _, h => by simp [jsonStable] at h
  | .setV _, h => by simp [jsonStable] at h
  | .recordV _, h => by simp [jsonStable] at h
theorem jsonStable_asdictList (xs : VList) (h : jsonStableList xs = true) :
    asdictList xs = xs :=
  match xs, h with
  | .nil, _ => rfl
  | .cons v rest, h => by
    have h2 : jsonStable v = true ∧ jsonStableList rest = true := by
      simpa [jsonStableList, Bool.and_eq_true] using h
    simp only [asdictList]
    rw [jsonStable_asdict v h2.1, jsonStable_asdictList rest h2.2]
theorem jsonStable_asdictFields (kvs : VFields) (h : jsonStableFields kvs = true) :
    asdictFields kvs = kvs :=
  match kvs, h with
  | .nil, _ => rfl
  | .cons n v rest, h => by
    have h2 : jsonStable v = true ∧ jsonStableFields rest = true := by
      simpa [jsonStableFields, Bool.and_eq_true] using h
    simp only [asdictFields]
    rw [jsonStable_asdict v h2.1, jsonStable_asdictFields rest h2.2]
end

mutual
theorem jsonStable_jsonRT (v : PyVal) (h : jsonStable v = true) : jsonRT v = v :=
  match v, h with
  | .nullV, _ => rfl
  | .boolV _, _ => rfl
  | .intV _, _ => rfl
  | .strV _, _ => rfl
  | .listV xs, h => by
    simp only [jsonRT]
    rw [jsonStable_jsonRTList xs (by simpa [jsonStable] using h)]
  | .dictV kvs, h => by
    simp only [jsonRT]
    rw [jsonStable_jsonRTFields kvs (by simpa [jsonStable] using h)]
  | .tupV _, h => by simp [jsonStable] at h
  | .setV _, h => by simp [jsonStable] at h
  | .recordV _, h => by simp [jsonStable] at h
theorem jsonStable_jsonRTList (xs : VList) (h : jsonStableList xs = true) :
    jsonRTList xs = xs :=
  match xs, h with
  | .nil, _ => rfl
  | .cons v rest, h => by
    have h2 : jsonStable v = true ∧ jsonStableList rest = true := by
      simpa [jsonStableList, Bool.and_eq_true] using h
    simp only [jsonRTList]
    rw [jsonStable_jsonRT v h2.1, jsonStable_jsonRTList rest h2.2]
theorem jsonStable_jsonRTFields (kvs : VFields) (h : jsonStableFields kvs = true) :
    jsonRTFields kvs = kvs :=
  match kvs, h with
  | .nil, _ => rfl
  | .cons n v rest, h => by
    have h2 : jsonStable v = true ∧ jsonStableFields rest = true := by
      simpa [jsonStableFields, Bool.and_eq_true] using h
    simp only [jsonRTFields]
    rw [jsonStable_jsonRT v h2.1, jsonStable_jsonRTFields rest h2.2]
end

theorem collectTagGo_acc_eq : ∀ (vs : TyList) (k0 k : String),
    collectTagGo vs (some k0) = .ok k → k = k0 := by
  intro vs
  induction vs using tyListInduction with
  | hnil =>
    intro k0 k h
    simpa [collectTagGo] using (Except.ok.inj h).symm
  | hcons t rest ih =>
    intro k0 k h
    cases t
    case recordT fs =>
      simp only [collectTagGo] at h
      rcases htf : fs.taggedFields with _ | ⟨⟨k2, ty⟩, tfrest⟩
      · rw [htf] at h; simp at h
      · cases tfrest with
        | cons p q => rw [htf] at h; simp at h
        | nil =>
          rw [htf] at h
          dsimp only at h
          by_cases hk : k0 = k2
          · rw [if_pos hk] at h
            cases ty <;> simp at h
            exact ih k0 k h
          · rw [if_neg hk] at h
            simp at h
    all_goals (simp only [collectTagGo] at h; simp at h)

theorem collectTagGo_mem : ∀ (vs : TyList) (acc : Option String) (k : String),
    collectTagGo vs acc = .ok k → ∀ {vt : PyType}, TyMem vt vs →
    vt.variantTagName = some k ∧ ∃ s, vt.variantTagValue = some s := by
  intro vs
  induction vs using tyListInduction with
  | hnil =>
    intro acc k h vt hm
    cases hm
  | hcons t rest ih =>
    intro acc k h vt hm
    cases t
    case recordT fs =>
      simp only [collectTagGo] at h
      rcases htf : fs.taggedFields with _ | ⟨⟨k2, ty⟩, tfrest⟩
      · rw [htf] at h; simp at h
      · cases tfrest with
        | cons p q => rw [htf] at h; simp at h
        | nil =>
          rw [htf] at h
          dsimp only at h
          have hrest : collectTagGo rest (some k2) = .ok k ∧ ∃ s0, ty = .lit s0 := by
            cases acc with
            | none =>
              dsimp only at h
              cases ty <;> simp at h
              rename_i s0
              exact ⟨h, s0, rfl⟩
            | some k0 =>
              dsimp only at h
              by_cases hk : k0 = k2
              · rw [if_pos hk] at h
                cases ty <;> simp at h
                rename_i s0
                exact ⟨hk ▸ h, s0, rfl⟩
              · rw [if_neg hk] at h
                simp at h
          obtain ⟨hrec, s0, rfl⟩ := hrest
          have hk2 : k = k2 := collectTagGo_acc_eq rest k2 k hrec
      -- the head variant carries the tag field named k2 with literal s0
      -- members are either the head or lie in the tail
          cases hm with
          | head rest2 =>
            subst hk2
            constructor
            · simp [PyType.variantTagName, htf]
            · exact ⟨s0, by simp [PyType.variantTagValue, htf]⟩
          | tail t2 hm2 =>
            exact ih (some k2) k hrec hm2
    all_goals (simp only [collectTagGo] at h; simp at h)

theorem tagKeyMatches_true_iff (u : PyType) (s : String) :
    tagKeyMatches u (.strV s) = true ↔ u.variantTagValue = some s := by
  unfold tagKeyMatches
  cases hv : u.variantTagValue with
  | none => simp
  | some s2 =>
    dsimp only
    rw [beq_iff_eq]
    constructor
    · intro h
      rw [h]
    · intro h
      exact (Option.some.inj h).symm

theorem hasTagVal_of_mem {vs : TyList} {vt : PyType} {s : String} (hm : TyMem vt vs)
    (hv : vt.variantTagValue = some s) : vs.hasTagVal (.strV s) = true := by
  induction hm with
  | head rest =>
    simp [TyList.hasTagVal, (tagKeyMatches_true_iff _ _).mpr hv]
  | tail t2 _ ih =>
    simp [TyList.hasTagVal, ih]

theorem mem_tagValues_of_hasTagVal : ∀ (vs : TyList) (s : String),
    vs.hasTagVal (.strV s) = true → s ∈ tagValues vs := by
  intro vs
  induction vs using tyListInduction with
  | hnil => intro s h; simp [TyList.hasTagVal] at h
  | hcons t rest ih =>
    intro s h
    simp only [TyList.hasTagVal, Bool.or_eq_true] at h
    rcases h with h | h
    · have := (tagKeyMatches_true_iff t s).mp h
      simp [tagValues, this]
    · simp [tagValues, ih s h]

theorem decodeUnionPick_eq {vs : TyList} {vt : PyType} {s : String} (hmem : TyMem vt vs)
    (hval : vt.variantTagValue = some s) (hnd : (tagValues vs).Nodup) (v : PyVal) :
    decodeUnionPick vs (.strV s) v = decode_value vt v := by
  induction hmem with
  | head rest =>
    have hmatch : tagKeyMatches vt (.strV s) = true := (tagKeyMatches_true_iff _ _).mpr hval
    have hrest : rest.hasTagVal (.strV s) = false := by
      by_contra hcon
      have htrue : rest.hasTagVal (.strV s) = true := by
        revert hcon; cases rest.hasTagVal (.strV s) <;> simp
      have hsmem := mem_tagValues_of_hasTagVal rest s htrue
      simp only [tagValues, hval, Option.getD_some, List.nodup_cons] at hnd
      exact hnd.1 hsmem
    rw [decodeUnionPick, hmatch, hrest]
    simp
  | tail t2 hm2 ih =>
    rename_i rest2
    have htail : TyList.hasTagVal rest2 (.strV s) = true := hasTagVal_of_mem hm2 hval
    have hnd2 : (tagValues rest2).Nodup := by
      simp only [tagValues, List.nodup_cons] at hnd
      exact hnd.2
    rw [decodeUnionPick, htail]
    simpa using ih hnd2

theorem taggedFields_name_mem : ∀ (fs : FieldDecls) (k : String) (ty : PyType),
    (k, ty) ∈ fs.taggedFields → k ∈ fs.names := by
  intro fs
  induction fs using fieldDeclsInduction with
  | hnil => intro k ty h; simp [FieldDecls.taggedFields] at h
  | hcons n tg ty2 rest ih =>
    intro k ty h
    simp only [FieldDecls.taggedFields] at h
    by_cases htg : tg = true
    · rw [if_pos htg] at h
      rcases List.mem_cons.mp h with heq | hmem
      · obtain ⟨rfl, rfl⟩ := Prod.mk.inj heq
        simp [FieldDecls.names]
      · simp [FieldDecls.names, ih k ty hmem]
    · rw [if_neg htg] at h
      simp [FieldDecls.names, ih k ty h]

theorem lookupTy_of_taggedFields : ∀ (fs : FieldDecls) (k : String) (ty : PyType),
    fs.names.Nodup → (k, ty) ∈ fs.taggedFields → fs.lookupTy k = some (true, ty) := by
  intro fs
  induction fs using fieldDeclsInduction with
  | hnil => intro k ty _ h; simp [FieldDecls.taggedFields] at h
  | hcons n tg ty2 rest ih =>
    intro k ty hnd h
    simp only [FieldDecls.names, List.nodup_cons] at hnd
    simp only [FieldDecls.taggedFields] at h
    by_cases htg : tg = true
    · rw [if_pos htg] at h
      rcases List.mem_cons.mp h with heq | hmem
      · obtain ⟨rfl, rfl⟩ := Prod.mk.inj heq
        simp [FieldDecls.lookupTy, htg]
      · have hk : n ≠ k := fun hcon =>
          hnd.1 (hcon ▸ taggedFields_name_mem rest k ty hmem)
        rw [FieldDecls.lookupTy, if_neg hk]
        exact ih k ty hnd.2 hmem
    · rw [if_neg htg] at h
      have hk : n ≠ k := fun hcon =>
        hnd.1 (hcon ▸ taggedFields_name_mem rest k ty h)
      rw [FieldDecls.lookupTy, if_neg hk]
      exact ih k ty hnd.2 h

theorem variantTag_spec {fs : FieldDecls} {k s : String}
    (hn : (PyType.recordT fs).variantTagName = some k)
    (hv : (PyType.recordT fs).variantTagValue = some s) :
    fs.taggedFields = [(k, .lit s)] := by
  simp only [PyType.variantTagName, PyType.variantTagValue] at hn hv
  rcases htf : fs.taggedFields with _ | ⟨⟨k2, ty⟩, tfrest⟩
  · rw [htf] at hn; simp at hn
  · cases tfrest with
    | cons p q => rw [htf] at hn; simp at hn
    | nil =>
      rw [htf] at hn hv
      cases ty <;> simp_all

theorem dataAligned_cons_of {F : PyVal → PyVal} {data : VFields} {n : String} {w : PyVal} :
    ∀ {kvs2 : VFields}, DataAligned F data kvs2 → (∀ m ∈ kvs2.names, m ≠ n) →
    DataAligned F (.cons n w data) kvs2 := by
  intro kvs2
  induction kvs2 using vfieldsInduction with
  | hnil => intro _ _; trivial
  | hcons n1 v1 rest ih =>
    intro h hnot
    obtain ⟨hl, hrest⟩ := h
    refine ⟨?_, ih hrest fun m hm => hnot m (by simp [VFields.names, hm])⟩
    rw [VFields.lookup, if_neg ?_]
    · exact hl
    · intro hcon
      exact hnot n1 (by simp [VFields.names]) hcon.symm

theorem dataAligned_self (F : PyVal → PyVal) :
    ∀ (kvs : VFields), kvs.names.Nodup → DataAligned F (kvs.mapVals F) kvs := by
  intro kvs
  induction kvs using vfieldsInduction with
  | hnil => intro _; trivial
  | hcons n v rest ih =>
    intro hnd
    simp only [VFields.names, List.nodup_cons] at hnd
    refine ⟨by rw [VFields.mapVals, VFields.lookup, if_pos rfl], ?_⟩
    exact dataAligned_cons_of (ih hnd.2) fun m hm hcon => hnd.1 (hcon ▸ hm)

theorem decode_optT_not_null {t : PyType} {w : PyVal} (h : w ≠ .nullV) :
    decode_value (.optT t) w = decode_value t w := by
  cases w
  case nullV => exact absurd rfl h
  all_goals rw [decode_value.eq_def]

theorem except_isOk_exists {ε α : Type} {e : Except ε α} (h : e.isOk = true) :
    ∃ a, e = .ok a := by
  cases e with
  | error e2 => simp [Except.isOk, Except.toBool] at h
  | ok a => exact ⟨a, rfl⟩

/-- Core round-trip statement: a well-typed value whose asdict image is
JSON-dumpable decodes, after the dumps and loads normalization, back to
itself at its own well-formed type. The natural-number bound drives the
strong induction on the size of the type. -/
theorem decode_core : ∀ (N : Nat) (t : PyType), sizeOf t ≤ N → ∀ (v : PyVal),
    WFT t → WT v t → dumpable (asdictVal v) = true →
    decode_value t (jsonRT (asdictVal v)) = .ok v := by
  intro N
  induction N using Nat.strong_induction_on with
  | _ N IH =>
    intro t ht v hwf hw hd
    cases hw with
    | intI n => simp [asdictVal, jsonRT, decode_value]
    | strI s => simp [asdictVal, jsonRT, decode_value]
    | boolI b => simp [asdictVal, jsonRT, decode_value, pyTruth]
    | litI s => simp [asdictVal, jsonRT, decode_value]
    | anyI v hstable =>
      rw [jsonStable_asdict v hstable, jsonStable_jsonRT v hstable]
      simp [decode_value]
    | setI hall =>
      simp [asdictVal, dumpable] at hd
    | optNullI t0 =>
      simp [asdictVal, jsonRT, decode_value]
    | optSomeI hw2 =>
      rename_i t0
      cases hwf with
      | optW hwf0 =>
        by_cases hnull : v = .nullV
        · subst hnull
          simp [asdictVal, jsonRT, decode_value]
        · have hne : jsonRT (asdictVal v) ≠ .nullV := by
            intro hcon
            exact hnull ((asdictVal_nullV_iff v).mp ((jsonRT_nullV_iff _).mp hcon))
          rw [decode_optT_not_null hne]
          have hszt : sizeOf t0 < N := by
            have : sizeOf t0 < sizeOf (PyType.optT t0) := by simp <;> omega
            omega
          exact IH (sizeOf t0) hszt t0 le_rfl v hwf0 hw2 hd
    | tupFixI hzip =>
      rename_i xs ts
      cases hwf with
      | tupFixW hl =>
        simp only [asdictVal, dumpable] at hd
        have hlen : ts.length = (jsonRTList (asdictList xs)).length := by
          rw [jsonRTList_length, asdictList_length]
          exact wtZip_length hzip
        have hzlem : ∀ (ts0 : TyList), sizeOf ts0 ≤ sizeOf ts → ∀ (xs0 : VList),
            WTZip xs0 ts0 → WFTL ts0 → dumpableList (asdictList xs0) = true →
            decodeZip ts0 (jsonRTList (asdictList xs0)) = .ok xs0 := by
          intro ts0
          induction ts0 using tyListInduction with
          | hnil =>
            intro _ xs0 hz _ _
            cases hz
            simp [asdictList, jsonRTList, decodeZip]
          | hcons t0 rest0 ih0 =>
            intro hsz xs0 hz hl0 hdl
            cases hz with
            | cons hv0 hrest =>
              rename_i v0 xs1
              cases hl0 with
              | cons hwt0 hlrest =>
                obtain ⟨hd0, hdrest⟩ := dumpableList_parts
                  (by simpa [asdictList] using hdl)
                have hszt : sizeOf t0 < N := by
                  have h1 : sizeOf t0 < sizeOf (TyList.cons t0 rest0) := by simp <;> omega
                  have h2 : sizeOf ts < sizeOf (PyType.tupleFix ts) := by simp <;> omega
                  omega
                have hone := IH (sizeOf t0) hszt t0 le_rfl v0 hwt0 hv0 hd0
                have htwo := ih0 (by
                  have : sizeOf rest0 ≤ sizeOf (TyList.cons t0 rest0) := by simp <;> omega
                  omega) xs1 hrest hlrest hdrest
                simp only [asdictList, jsonRTList, decodeZip, hone, htwo]
        have hmain := hzlem ts le_rfl xs hzip hl hd
        simp only [asdictVal, jsonRT, decode_value, if_pos hlen, hmain]
    | tupVarI hall =>
      rename_i xs t0
      cases hwf with
      | tupVarW hwf0 =>
        simp only [asdictVal, dumpable] at hd
        have hszt : sizeOf t0 < N := by
          have : sizeOf t0 < sizeOf (PyType.tupleVar t0) := by simp <;> omega
          omega
        have halem : ∀ (xs0 : VList), WTAll xs0 t0 →
            dumpableList (asdictList xs0) = true →
            decodeAll t0 (jsonRTList (asdictList xs0)) = .ok xs0 := by
          intro xs0
          induction xs0 using vlistInduction with
          | hnil => intro _ _; simp [asdictList, jsonRTList, decodeAll]
          | hcons v0 rest0 ih0 =>
            intro ha hdl
            cases ha with
            | cons hv0 hrest =>
              obtain ⟨hd0, hdrest⟩ := dumpableList_parts
                (by simpa [asdictList] using hdl)
              have hone := IH (sizeOf t0) hszt t0 le_rfl v0 hwf0 hv0 hd0
              have htwo := ih0 hrest hdrest
              simp only [asdictList, jsonRTList, decodeAll, hone, htwo]
        have hmain := halem xs hall hd
        simp only [asdictVal, jsonRT, decode_value, hmain]
    | listI hall =>
      rename_i xs t0
      cases hwf with
      | listW hwf0 =>
        simp only [asdictVal, dumpable] at hd
        have hszt : sizeOf t0 < N := by
          have : sizeOf t0 < sizeOf (PyType.listT t0) := by simp <;> omega
          omega
        have halem : ∀ (xs0 : VList), WTAll xs0 t0 →
            dumpableList (asdictList xs0) = true →
            decodeAll t0 (jsonRTList (asdictList xs0)) = .ok xs0 := by
          intro xs0
          induction xs0 using vlistInduction with
          | hnil => intro _ _; simp [asdictList, jsonRTList, decodeAll]
          | hcons v0 rest0 ih0 =>
            intro ha hdl
            cases ha with
            | cons hv0 hrest =>
              obtain ⟨hd0, hdrest⟩ := dumpableList_parts
                (by simpa [asdictList] using hdl)
              have hone := IH (sizeOf t0) hszt t0 le_rfl v0 hwf0 hv0 hd0
              have htwo := ih0 hrest hdrest
              simp only [asdictList, jsonRTList, decodeAll, hone, htwo]
        have hmain := halem xs hall hd
        simp only [asdictVal, jsonRT, decode_value, hmain]
    | unionI hmem hw2 =>
      rename_i vt vs
      cases hwf with
      | unionW hdecl hl =>
        have hdecl2 := hdecl
        simp only [unionDeclOK, Bool.and_eq_true, decide_eq_true_eq] at hdecl2
        obtain ⟨⟨hrec, hok⟩, hndtags⟩ := hdecl2
        obtain ⟨k, hk⟩ := except_isOk_exists hok
        obtain ⟨fsv, rfl⟩ := allRecords_tyMem hrec hmem
        cases hw2 with
        | recordI hfs =>
          rename_i gs
          obtain ⟨hname, s, hsval⟩ := collectTagGo_mem vs none k hk hmem
          have htagfs : fsv.taggedFields = [(k, .lit s)] := variantTag_spec hname hsval
          have hwfvt := wftl_tyMem hl hmem
          cases hwfvt with
          | recordW hndv hnocv hfwv =>
            have hlookty : fsv.lookupTy k = some (true, .lit s) :=
              lookupTy_of_taggedFields fsv k (.lit s) hndv (by simp [htagfs])
            obtain ⟨vtag, hvlook, hvwt⟩ := wtFields_lookup hfs hlookty
            have hvtag : vtag = .strV s := by cases hvwt; rfl
            subst hvtag
            have hlookdata : (jsonRTFields (asdictFields gs)).lookup k
                = some (.strV s) := by
              rw [jsonRTFields_asdictFields, lookup_mapVals, hvlook]
              rfl
            have hpick := decodeUnionPick_eq hmem hsval hndtags
              (.dictV (jsonRTFields (asdictFields gs)))
            have hszvt : sizeOf (PyType.recordT fsv) < N := by
              have := tyMem_sizeOf_lt hmem
              omega
            have hihres := IH (sizeOf (PyType.recordT fsv)) hszvt (PyType.recordT fsv)
              le_rfl (.recordV gs) (WFT.recordW hndv hnocv hfwv) (WT.recordI hfs) hd
            simp only [asdictVal, jsonRT] at hihres ⊢
            simp only [decode_value, if_pos hrec, hk, hlookdata, hpick, hihres]
    | recordI hfs =>
      rename_i gs fs
      cases hwf with
      | recordW hnd hnoc hfw =>
        simp only [asdictVal, dumpable] at hd
        have hndgs : gs.names.Nodup := by rw [wtFields_names hfs]; exact hnd
        have hDA : DataAligned (fun v => jsonRT (asdictVal v))
            (jsonRTFields (asdictFields gs)) gs := by
          rw [jsonRTFields_asdictFields]
          exact dataAligned_self _ gs hndgs
        have hflem : ∀ (fs0 : FieldDecls), sizeOf fs0 ≤ sizeOf fs → ∀ (gs0 : VFields),
            WTFields gs0 fs0 → WFTF fs0 → (∀ m ∈ fs0.names, m ≠ "codecs") →
            DataAligned (fun v => jsonRT (asdictVal v)) (jsonRTFields (asdictFields gs)) gs0 →
            dumpableFields (asdictFields gs0) = true →
            decodeFields fs0 (jsonRTFields (asdictFields gs)) = .ok gs0 := by
          intro fs0
          induction fs0 using fieldDeclsInduction with
          | hnil =>
            intro _ gs0 hwt _ _ _ _
            cases hwt
            simp [decodeFields]
          | hcons n tg ty rest ihf =>
            intro hsz gs0 hwt hfw0 hnoc0 hda0 hdf0
            cases hwt with
            | cons hv hrest =>
              rename_i v gs1
              cases hfw0 with
              | cons hwty hfwrest =>
                obtain ⟨hlk, hda1⟩ := hda0
                obtain ⟨hd0, hdrest⟩ := dumpableFields_parts
                  (by simpa [asdictFields] using hdf0)
                have hncod : n ≠ "codecs" := hnoc0 n (by simp [FieldDecls.names])
                have hszt : sizeOf ty < N := by
                  have h1 : sizeOf ty < sizeOf (FieldDecls.cons n tg ty rest) := by
                    simp <;> omega
                  have h2 : sizeOf fs < sizeOf (PyType.recordT fs) := by simp <;> omega
                  omega
                have hone := IH (sizeOf ty) hszt ty le_rfl v hwty hv hd0
                have htwo := ihf (by
                  have : sizeOf rest ≤ sizeOf (FieldDecls.cons n tg ty rest) := by
                    simp <;> omega
                  omega) gs1 hrest hfwrest
                  (fun m hm => hnoc0 m (by simp [FieldDecls.names, hm])) hda1 hdrest
                simp only [decodeFields, if_neg hncod, hlk, Option.getD_some, hone, htwo]
        have hmain := hflem fs le_rfl gs hfs hfw
          (fun m hm hcon => hnoc (hcon ▸ hm)) hDA hd
        simp only [asdictVal, jsonRT, decode_value, hmain]

theorem scalar_jsonRTList {te : PyType} (hs : te.isScalarT = true) :
    ∀ (xs : VList), WTAll xs te → jsonRTList xs = xs := by
  intro xs
  induction xs using vlistInduction with
  | hnil => intro _; rfl
  | hcons v rest ih =>
    intro ha
    cases ha with
    | cons hv hrest => simp only [jsonRTList, scalar_jsonRT hs hv, ih hrest]

theorem scalar_decodeAll {te : PyType} (hs : te.isScalarT = true) :
    ∀ (xs : VList), WTAll xs te → decodeAll te xs = .ok xs := by
  intro xs
  induction xs using vlistInduction with
  | hnil => intro _; simp [decodeAll]
  | hcons v rest ih =>
    intro ha
    cases ha with
    | cons hv hrest => simp only [decodeAll, scalar_decode hs hv, ih hrest]

/-- A top-level set field survives the round trip: encode_value has turned
the set into the list of its elements, and the set target type rebuilds the
set from that list. -/
theorem decode_top_set : ∀ (N : Nat) (t : PyType), sizeOf t ≤ N → ∀ (xs : VList),
    WFT t → WT (.setV xs) t → dumpableList xs = true →
    decode_value t (.listV (jsonRTList xs)) = .ok (.setV xs) := by
  intro N
  induction N using Nat.strong_induction_on with
  | _ N IH =>
    intro t ht xs hwf hw hdl
    cases hw with
    | anyI v2 hst => simp [jsonStable] at hst
    | setI hall =>
      rename_i te
      cases hwf with
      | setW hscal =>
        rw [scalar_jsonRTList hscal xs hall]
        simp only [decode_value, scalar_decodeAll hscal xs hall]
    | optSomeI hw2 =>
      rename_i t2
      cases hwf with
      | optW hwf2 =>
        rw [decode_optT_not_null (by simp)]
        have hszt : sizeOf t2 < N := by
          have : sizeOf t2 < sizeOf (PyType.optT t2) := by simp <;> omega
          omega
        exact IH (sizeOf t2) hszt t2 le_rfl xs hwf2 hw2 hdl
    | unionI hmem hw2 =>
      rename_i vt vs
      cases hwf with
      | unionW hdecl hl =>
        have hrec : vs.allRecords = true := by
          simp only [unionDeclOK, Bool.and_eq_true] at hdecl
          exact hdecl.1.1
        obtain ⟨fsv, rfl⟩ := allRecords_tyMem hrec hmem
        cases hw2

theorem encode_value_asdict_nonset {v : PyVal} (h : ∀ xs, v ≠ .setV xs) :
    encode_value (asdictVal v) = asdictVal v := by
  cases v <;> first | (exact absurd rfl (h _)) | rfl

/-- Round trip for a direct field value of the outermost record: the only
difference from the core statement is the single encode_value application
that to_dict performs on top-level field values. -/
theorem topFieldDecode {t : PyType} {v : PyVal} (hwf : WFT t) (hw : WT v t)
    (hd : dumpable (encode_value (asdictVal v)) = true) :
    decode_value t (jsonRT (encode_value (asdictVal v))) = .ok v := by
  by_cases hs : ∃ xs, v = .setV xs
  · obtain ⟨xs, rfl⟩ := hs
    have hdl : dumpableList xs = true := by
      simpa [asdictVal, encode_value, dumpable] using hd
    have hres := decode_top_set (sizeOf t) t le_rfl xs hwf hw hdl
    simpa [asdictVal, encode_value, jsonRT] using hres
  · have hne : ∀ xs, v ≠ .setV xs := fun xs hc => hs ⟨xs, hc⟩
    rw [encode_value_asdict_nonset hne]
    exact decode_core (sizeOf t) t le_rfl v hwf hw
      (by rwa [encode_value_asdict_nonset hne] at hd)

theorem to_dict_cons (n : String) (v : PyVal) (rest : VFields) :
    to_dict (.cons n v rest) = .cons n (encode_value (asdictVal v)) (to_dict rest) := rfl

/-- The whole from_dict walk over a to_dict document reconstructs the
original fields. -/
theorem from_dict_top (fs : FieldDecls) (kvs : VFields) (hwf : WFT (.recordT fs))
    (hw : WT (.recordV kvs) (.recordT fs)) (hd : dumpableFields (to_dict kvs) = true) :
    decodeFields fs (jsonRTFields (to_dict kvs)) = .ok kvs := by
  cases hwf with
  | recordW hnd hnoc hfw =>
    cases hw with
    | recordI hfs =>
      have hndk : kvs.names.Nodup := by rw [wtFields_names hfs]; exact hnd
      have hDA : DataAligned (fun v => jsonRT (encode_value (asdictVal v)))
          (jsonRTFields (to_dict kvs)) kvs := by
        rw [jsonRTFields_to_dict]
        exact dataAligned_self _ kvs hndk
      have hflem : ∀ (fs0 : FieldDecls) (gs0 : VFields), WTFields gs0 fs0 → WFTF fs0 →
          (∀ m ∈ fs0.names, m ≠ "codecs") →
          DataAligned (fun v => jsonRT (encode_value (asdictVal v)))
            (jsonRTFields (to_dict kvs)) gs0 →
          dumpableFields (to_dict gs0) = true →
          decodeFields fs0 (jsonRTFields (to_dict kvs)) = .ok gs0 := by
        intro fs0
        induction fs0 using fieldDeclsInduction with
        | hnil =>
          intro gs0 hwt _ _ _ _
          cases hwt
          simp [decodeFields]
        | hcons n tg ty rest ihf =>
          intro gs0 hwt hfw0 hnoc0 hda0 hdf0
          cases hwt with
          | cons hv hrest =>
            rename_i v gs1
            cases hfw0 with
            | cons hwty hfwrest =>
              obtain ⟨hlk, hda1⟩ := hda0
              have hdparts := dumpableFields_parts
                (by rw [← to_dict_cons]; exact hdf0)
              have hone := topFieldDecode hwty hv hdparts.1
              have htwo := ihf gs1 hrest hfwrest
                (fun m hm => hnoc0 m (by simp [FieldDecls.names, hm])) hda1 hdparts.2
              have hncod : n ≠ "codecs" := hnoc0 n (by simp [FieldDecls.names])
              simp only [decodeFields, if_neg hncod, hlk, Option.getD_some, hone, htwo]
      exact hflem fs kvs hfs hfw (fun m hm hcon => hnoc (hcon ▸ hm)) hDA hd

/-- Claim C1 counterexample. The round trip fails on a supported record that
nests a set inside an inner record: asdict leaves the set in place, the
shallow encode_value pass converts only top-level field values, and
json.dumps then rejects the leftover set, so encode raises TypeError and the
round trip cannot return the record. -/
theorem c1_roundtrip_counterexample :
    (encode (.recordV nestedSetKvs)).bind (fun doc => decode doc outerFields)
      ≠ .ok (.recordV nestedSetKvs) := by
  have hval : (encode (.recordV nestedSetKvs)).bind (fun doc => decode doc outerFields)
      = .error (.typeErr "Object is not JSON serializable") := rfl
  rw [hval]
  simp

/-- Claim C1, amended. For every supported well-typed record whose to_dict
document is JSON-serializable (equivalently: whose sets occur only as
direct top-level field values), decoding the encoding of the record against
its own type returns the record unchanged; this covers records containing
nested records, sum-typed fields, fixed tuples, top-level sets and
sequences. -/
theorem c1_roundtrip_amended (fs : FieldDecls) (kvs : VFields) (hwf : WFT (.recordT fs))
    (hw : WT (.recordV kvs) (.recordT fs))
    (hd : dumpable (.dictV (to_dict kvs)) = true) :
    (encode (.recordV kvs)).bind (fun doc => decode doc fs) = .ok (.recordV kvs) := by
  have hdf : dumpableFields (to_dict kvs) = true := by simpa [dumpable] using hd
  have hmain := from_dict_top fs kvs hwf hw hdf
  simp only [encode, if_pos hd, Except.bind, jsonRT, decode, from_dict, hmain]

theorem sampleKvs_wt : WT (.recordV sampleKvs) (.recordT sampleFields) :=
  WT.recordI
    (WTFields.cons (WT.tupVarI (WTAll.cons (WT.intI 2) (WTAll.cons (WT.intI 3) (WTAll.nil _))))
    (WTFields.cons (WT.tupFixI (WTZip.cons (WT.intI 1) (WTZip.cons (WT.strI "u") WTZip.nil)))
    (WTFields.cons (WT.unionI (TyMem.head _ _)
      (WT.recordI (WTFields.cons (WT.litI "a") (WTFields.cons (WT.intI 7) WTFields.nil))))
    (WTFields.cons (WT.setI (WTAll.cons (WT.intI 0) (WTAll.cons (WT.intI 1) (WTAll.nil _))))
    (WTFields.cons (WT.listI (WTAll.cons (WT.strI "p") (WTAll.cons (WT.strI "q") (WTAll.nil _))))
    (WTFields.cons (WT.recordI (WTFields.cons (WT.intI 5) WTFields.nil))
    (WTFields.cons (WT.optNullI _) WTFields.nil)))))))

theorem sampleFields_wft : WFT (.recordT sampleFields) :=
  WFT.recordW (by decide) (by decide)
    (WFTF.cons (WFT.tupVarW WFT.intW)
    (WFTF.cons (WFT.tupFixW (WFTL.cons WFT.intW (WFTL.cons WFT.strW WFTL.nil)))
    (WFTF.cons (WFT.unionW (by decide)
      (WFTL.cons (WFT.recordW (by decide) (by decide)
        (WFTF.cons (WFT.litW "a") (WFTF.cons WFT.intW WFTF.nil)))
      (WFTL.cons (WFT.recordW (by decide) (by decide)
        (WFTF.cons (WFT.litW "b") (WFTF.cons WFT.boolW WFTF.nil)))
      WFTL.nil)))
    (WFTF.cons (WFT.setW (by decide))
    (WFTF.cons (WFT.listW WFT.strW)
    (WFTF.cons (WFT.recordW (by decide) (by decide) (WFTF.cons WFT.intW WFTF.nil))
    (WFTF.cons (WFT.optW WFT.intW) WFTF.nil)))))))

/-- Witness for the amended claim C1: the hypotheses are discharged on an
explicit record that contains a variadic tuple, a fixed tuple, a tagged
union field, a top-level set, a list, a nested record and an optional
field. -/
theorem c1_roundtrip_witness :
    (encode (.recordV sampleKvs)).bind (fun doc => decode doc sampleFields)
      = .ok (.recordV sampleKvs) :=
  c1_roundtrip_amended sampleFields sampleKvs sampleFields_wft sampleKvs_wt (by decide)

/-- Claim C9: decoding any input sequence against a fixed-arity tuple type
whose declared arity differs from the sequence length fails with the
arity-mismatch TypeError; the sequence is never truncated or padded. -/
theorem c9_tuple_arity (ts : TyList) (xs : VList) (h : ts.length ≠ xs.length) :
    decode_value (.tupleFix ts) (.listV xs) = .error (.typeErr "tuple arity mismatch") := by
  rw [decode_value.eq_def]
  dsimp only
  rw [if_neg (by simpa [jsonRTList_length] using h)]

/-- Witness for claim C9 at the concrete instance from the spec: a
three-element sequence against the two-element tuple type. -/
theorem c9_tuple_arity_witness :
    decode_value (.tupleFix pairTypes) (.listV threeElems)
      = .error (.typeErr "tuple arity mismatch") :=
  c9_tuple_arity pairTypes threeElems (by decide)

/-- Claim C3: decoding the true two-variant union (A tagged x equals a,
B tagged x equals b) from a mapping whose discriminator holds a routes to
the decode of variant A (and b to variant B); an absent discriminator field
raises KeyError, as does a discriminator value matching neither variant
(never a silent default); and each tag-declaration violation (zero tagged
fields, two tagged fields, disagreeing discriminator names, a non-literal
discriminator type) raises a TypeError at decode time. -/
theorem c3_tagged_union_decode :
    (∀ kvs : VFields, kvs.lookup "x" = some (.strV "a") →
      decode_value (.unionT ABVariants) (.dictV kvs)
        = decode_value (.recordT AFields) (.dictV kvs))
    ∧ (∀ kvs : VFields, kvs.lookup "x" = some (.strV "b") →
      decode_value (.unionT ABVariants) (.dictV kvs)
        = decode_value (.recordT BFields) (.dictV kvs))
    ∧ (∀ kvs : VFields, kvs.lookup "x" = none →
      decode_value (.unionT ABVariants) (.dictV kvs) = .error .keyErr)
    ∧ (∀ (kvs : VFields) (s : String), kvs.lookup "x" = some (.strV s) →
      s ≠ "a" → s ≠ "b" →
      decode_value (.unionT ABVariants) (.dictV kvs) = .error .keyErr)
    ∧ (∀ kvs : VFields,
      decode_value (.unionT (.cons (.recordT AZeroTagFields) (.cons (.recordT BFields) .nil)))
        (.dictV kvs) = .error (.typeErr "zero or multiple tag fields"))
    ∧ (∀ kvs : VFields,
      decode_value (.unionT (.cons (.recordT ATwoTagFields) (.cons (.recordT BFields) .nil)))
        (.dictV kvs) = .error (.typeErr "zero or multiple tag fields"))
    ∧ (∀ kvs : VFields,
      decode_value (.unionT (.cons (.recordT AFields) (.cons (.recordT BTagYFields) .nil)))
        (.dictV kvs) = .error (.typeErr "tag name disagreement"))
    ∧ (∀ kvs : VFields,
      decode_value (.unionT (.cons (.recordT ANonLitTagFields) (.cons (.recordT BFields) .nil)))
        (.dictV kvs) = .error (.typeErr "tag is not a literal")) := by
  refine ⟨?_, ?_, ?_, ?_, ?_, ?_, ?_, ?_⟩
  · intro kvs h
    simp [decode_value, decodeUnionPick, ABVariants, AFields, BFields, collectTagGo,
      FieldDecls.taggedFields, TyList.allRecords, PyType.isRecordT, tagKeyMatches,
      PyType.variantTagValue, TyList.hasTagVal, h]
  · intro kvs h
    simp [decode_value, decodeUnionPick, ABVariants, AFields, BFields, collectTagGo,
      FieldDecls.taggedFields, TyList.allRecords, PyType.isRecordT, tagKeyMatches,
      PyType.variantTagValue, TyList.hasTagVal, h]
  · intro kvs h
    simp [decode_value, ABVariants, AFields, BFields, collectTagGo,
      FieldDecls.taggedFields, TyList.allRecords, PyType.isRecordT, h]
  · intro kvs s h hna hnb
    simp [decode_value, decodeUnionPick, ABVariants, AFields, BFields, collectTagGo,
      FieldDecls.taggedFields, TyList.allRecords, PyType.isRecordT, tagKeyMatches,
      PyType.variantTagValue, TyList.hasTagVal, h, hna, hnb]
  · intro kvs
    simp [decode_value, AZeroTagFields, BFields, collectTagGo,
      FieldDecls.taggedFields, TyList.allRecords, PyType.isRecordT]
  · intro kvs
    simp [decode_value, ATwoTagFields, BFields, collectTagGo,
      FieldDecls.taggedFields, TyList.allRecords, PyType.isRecordT]
  · intro kvs
    simp [decode_value, AFields, BTagYFields, collectTagGo,
      FieldDecls.taggedFields, TyList.allRecords, PyType.isRecordT]
  · intro kvs
    simp [decode_value, ANonLitTagFields, BFields, collectTagGo,
      FieldDecls.taggedFields, TyList.allRecords, PyType.isRecordT]

/-- Witness for claim C3: the hypothesis-bearing parts applied at concrete
mappings (discriminator a, discriminator absent, discriminator c). -/
theorem c3_tagged_union_witness :
    decode_value (.unionT ABVariants) (.dictV aInput)
      = decode_value (.recordT AFields) (.dictV aInput)
    ∧ decode_value (.unionT ABVariants) (.dictV noTagInput) = .error .keyErr
    ∧ decode_value (.unionT ABVariants) (.dictV cTagInput) = .error .keyErr :=
  ⟨c3_tagged_union_decode.1 aInput rfl,
   c3_tagged_union_decode.2.2.1 noTagInput rfl,
   c3_tagged_union_decode.2.2.2.1 cTagInput "c" rfl (by decide) (by decide)⟩

end Serialize

end ZarrProof
